import Mathlib

/-!
Verification of the dependency-graph engine of the CICD_fixer repository.

The definitions below are a shallow embedding of
`agent/analyzers/dag_analyzer.py` and `agent/fixers/parallelizer.py`.
Graphs mirror networkx `DiGraph` objects: an ordered node list (insertion
order) and an ordered edge list, both duplicate-free by construction.
The networkx exception classes relevant to the embedded code are modelled
explicitly, because the Python code catches `nx.NetworkXError`, which in
networkx is a *sibling* of `NetworkXUnfeasible` (raised by
`topological_generations` / `topological_sort` on cyclic graphs) and of
`NodeNotFound` (raised by `all_simple_paths` when the source is not a
node); neither of those is a subclass of `NetworkXError`.
-/

namespace CICD

/-- Decidable equality for `Except` results (not derived in core). -/
instance {e a : Type} [DecidableEq e] [DecidableEq a] :
    DecidableEq (Except e a) := fun x y =>
  match x, y with
  | .ok u, .ok v =>
      if h : u = v then isTrue (by rw [h]) else isFalse (by simp [h])
  | .error u, .error v =>
      if h : u = v then isTrue (by rw [h]) else isFalse (by simp [h])
  | .ok _, .error _ => isFalse (by simp)
  | .error _, .ok _ => isFalse (by simp)

abbrev Name := String

/-- Model of the networkx exception classes that the embedded code can
raise or catch.  In networkx, `NetworkXError` and `NetworkXUnfeasible`
are distinct subclasses of `NetworkXException` (`NetworkXUnfeasible`
derives from `NetworkXAlgorithmError`, not from `NetworkXError`), and
`NodeNotFound` derives directly from `NetworkXException`. -/
inductive NxExc where
  | networkXError
  | networkXUnfeasible
  | nodeNotFound
  deriving DecidableEq, Repr

/-- Whether an exception would be caught by `except nx.NetworkXError`:
only instances of the `NetworkXError` class itself (it has no subclasses
among the exceptions raised here). -/
def NxExc.isNetworkXError : NxExc → Bool
  | .networkXError => true
  | _ => false

/-- A directed graph in the style of `networkx.DiGraph`: nodes in
insertion order, edges in insertion order; both lists are duplicate-free
by construction of `addNode` / `addEdge`. -/
structure Graph where
  nodes : List Name
  edges : List (Name × Name)
  deriving DecidableEq, Repr

def Graph.empty : Graph := ⟨[], []⟩

def Graph.addNode (g : Graph) (n : Name) : Graph :=
  if n ∈ g.nodes then g else { g with nodes := g.nodes ++ [n] }

/-- `DiGraph.add_edge`: inserts missing endpoints as nodes, then records
the edge once (adding an existing edge is a no-op; `addNode` never
touches edges, so the duplicate test reads the original edge list). -/
def Graph.addEdge (g : Graph) (u v : Name) : Graph :=
  { nodes := ((g.addNode u).addNode v).nodes,
    edges := if (u, v) ∈ g.edges then g.edges else g.edges ++ [(u, v)] }

def Graph.hasEdge (g : Graph) (u v : Name) : Bool :=
  g.edges.contains (u, v)

/-- Successors of `u`, in edge-insertion order (networkx adjacency
iteration order). -/
def Graph.succs (g : Graph) (u : Name) : List Name :=
  (g.edges.filter (fun e => e.1 == u)).map Prod.snd

/-- Predecessors of `v`, in edge-insertion order. -/
def Graph.preds (g : Graph) (v : Name) : List Name :=
  (g.edges.filter (fun e => e.2 == v)).map Prod.fst

def Graph.inDegree (g : Graph) (v : Name) : Nat :=
  (g.preds v).length

/-- `reachesIn fuel u v` holds when there is a directed walk from `u` to
`v` of at most `fuel` edges. -/
def Graph.reachesIn (g : Graph) : Nat → Name → Name → Bool
  | 0, u, v => u == v
  | fuel + 1, u, v => u == v || (g.succs u).any (fun w => g.reachesIn fuel w v)

/-- `nx.ancestors(G, v)`: all nodes with a directed path (of length at
least one) to `v`, excluding `v` itself.  A walk can always be shortened
to a simple path of at most `|nodes|` edges, so fuel `|nodes|` is exact. -/
def Graph.ancestors (g : Graph) (v : Name) : List Name :=
  g.nodes.filter (fun u => u != v && g.reachesIn g.nodes.length u v)

/-- `nx.descendants(G, u)`: all nodes reachable from `u` by a path of
length at least one, excluding `u` itself. -/
def Graph.descendants (g : Graph) (u : Name) : List Name :=
  g.nodes.filter (fun v => v != u && g.reachesIn g.nodes.length u v)

/-! ## Job model and `needs` normalization (`dag_analyzer.py`) -/

/-- An element of a YAML `needs` list, as classified by `_parse_needs` /
`_get_needs_list`: a plain string, a mapping exposing a `job` field, or
anything else (a number, a boolean, a mapping without a `job` key, ...),
which the Python code silently skips. -/
inductive NeedsElem where
  | str (s : String)
  | dictWithJob (j : String)
  | otherElem
  deriving DecidableEq, Repr

/-- A YAML `needs` value: a single name string, a list of elements, a
mapping (whose keys, in insertion order, are the dependency names), or a
value of any other type (a number, a boolean, null, ...). -/
inductive NeedsValue where
  | str (s : String)
  | list (items : List NeedsElem)
  | dict (keys : List String)
  | otherVal
  deriving DecidableEq, Repr

/-- Classification of one `needs`-list element, shared by `_parse_needs`
and both `_get_needs_list` variants: keep a name string or the `job`
field of a mapping that has one; skip anything else. -/
def needsElemName : NeedsElem → Option Name
  | .str s => some s
  | .dictWithJob j => some j
  | .otherElem => none

/-- `DAGAnalyzer._parse_needs`: string gives a singleton; a list keeps
name strings and the `job` field of mappings that have one, silently
dropping every other element; a mapping gives its keys; any other value
gives the empty list.  The function is total: it never raises. -/
def parseNeeds : NeedsValue → List Name
  | .str s => [s]
  | .list items => items.filterMap needsElemName
  | .dict keys => keys
  | .otherVal => []

/-- A job record as built by `_extract_jobs`: the parsed dependency
names, the estimated duration in seconds (if computed) and the number of
steps.  Step contents are opaque to the graph engine. -/
structure Job where
  needs : List Name
  estimatedDuration : Option Nat := none
  stepsCount : Nat := 0
  deriving DecidableEq, Repr

/-- The job map: insertion-ordered association list mirroring the Python
dict `jobs` (keys are unique in a dict; theorems carry that as a `Nodup`
hypothesis). -/
abbrev JobMap := List (Name × Job)

/-- `jobs.keys` of the job dict. -/
def jobKeys (jobs : JobMap) : List Name := jobs.map Prod.fst

/-- The shared shape of all three `_build_dependency_graph` variants:
from (job name, dependency names) pairs, add every job as a node, then
for each job and each dependency add the edge dependency→job only when
the dependency is a known job name; dangling names produce no edge. -/
def buildFromNeeds (pairs : List (Name × List Name)) : Graph :=
  let g := pairs.foldl (fun g p => g.addNode p.1) Graph.empty
  pairs.foldl
    (fun g p =>
      p.2.foldl
        (fun g dep =>
          if (pairs.map Prod.fst).contains dep then g.addEdge dep p.1 else g)
        g)
    g

/-- The step of the edge-building fold of `buildFromNeeds` (fixing the
key set `K`). -/
def edgeStep (K : List Name) (g : Graph) (p : Name × List Name) : Graph :=
  p.2.foldl (fun g dep => if K.contains dep then g.addEdge dep p.1 else g) g

/-- `DAGAnalyzer._build_dependency_graph`, over jobs whose `needs` were
normalized by `_parse_needs`. -/
def buildDependencyGraph (jobs : JobMap) : Graph :=
  buildFromNeeds (jobs.map (fun p => (p.1, p.2.needs)))

/-! ## Dependency issues (`_check_dependency_issues`) -/

/-- The tagged issue variants emitted by `_check_dependency_issues`
(severity and message strings are presentation and are omitted). -/
inductive DepIssue where
  | circular (jobs : List Name)
  | missing (job : Name) (missingDep : Name)
  | redundant (job : Name) (dependency : Name) (redundantWith : List Name)
  deriving DecidableEq, Repr

/-- Recognizer for the `missing_dependency` issue tag. -/
def isMissingIssue : DepIssue → Bool
  | .missing _ _ => true
  | _ => false

/-- Does the node sequence `c` (visiting each node once) close into a
directed cycle?  `chainClosed g l first` checks consecutive edges along
`l` and the closing edge back to `first`. -/
def chainClosed (g : Graph) : List Name → Name → Bool
  | [], _ => false
  | [u], first => g.hasEdge u first
  | u :: v :: rest, first => g.hasEdge u v && chainClosed g (v :: rest) first

def isCycleList (g : Graph) : List Name → Bool
  | [] => false
  | x :: xs => chainClosed g (x :: xs) x

/-- Index of a name in the node list (used to canonicalize cycle
rotations). -/
def nodeIdx (g : Graph) (n : Name) : Nat := (g.nodes.indexOf n)

/-- All ways to insert `x` into a list (helper for the permutation
enumeration; structural, so concrete instances evaluate). -/
def insertEverywhere {α : Type} (x : α) : List α → List (List α)
  | [] => [[x]]
  | y :: ys => (x :: y :: ys) :: (insertEverywhere x ys).map (y :: ·)

/-- All permutations of a list (structural recursion). -/
def allPerms {α : Type} : List α → List (List α)
  | [] => [[]]
  | x :: xs => (allPerms xs).flatMap (insertEverywhere x)

/-- All sublists of a list (structural recursion). -/
def allSublists {α : Type} : List α → List (List α)
  | [] => [[]]
  | x :: xs => allSublists xs ++ (allSublists xs).map (x :: ·)

/-- Model of `nx.simple_cycles`: every simple directed cycle, listed once,
represented by the rotation starting at its node of least insertion
index.  (The enumeration order differs from networkx's Johnson algorithm;
no embedded theorem depends on the order.) -/
def simpleCycles (g : Graph) : List (List Name) :=
  ((allSublists g.nodes).flatMap allPerms).filter
    (fun c =>
      isCycleList g c &&
        c.all (fun n => nodeIdx g (c.headD "") ≤ nodeIdx g n))

/-- `nx.is_directed_acyclic_graph`. -/
def isDag (g : Graph) : Bool := (simpleCycles g).isEmpty

/-- `DAGAnalyzer._check_dependency_issues`.  One `circular` issue per
simple cycle; one `missing` issue per (job, dangling-name) occurrence,
in job / needs order; and for every job, for every direct dependency
`dep` whose ancestor set meets the direct-dependency set, one
`redundant` issue naming `dep` as the redundant dependency and the
intersection as `redundant_with`. -/
def checkDependencyIssues (g : Graph) (jobs : JobMap) : List DepIssue :=
  let cycleIssues := if isDag g then [] else (simpleCycles g).map .circular
  let missingIssues :=
    jobs.flatMap (fun p =>
      (p.2.needs.filter (fun d => !(jobKeys jobs).contains d)).map
        (fun d => DepIssue.missing p.1 d))
  let redundantIssues :=
    g.nodes.flatMap (fun jobName =>
      let directDeps := (g.preds jobName).dedup
      directDeps.filterMap (fun dep =>
        let overlap := (g.ancestors dep).filter (fun a => directDeps.contains a)
        if overlap.isEmpty then none
        else some (DepIssue.redundant jobName dep overlap)))
  cycleIssues ++ missingIssues ++ redundantIssues

/-! ## Topological generations (`nx.topological_generations`) -/

/-- One step of the generation peeling: process one finished node,
decrementing the in-degree of each child still in the in-degree map; a
child whose count reaches zero is deleted from the map and appended to
the next generation, in discovery order — exactly the networkx loop. -/
def processChild (st : List (Name × Nat) × List Name) (child : Name) :
    List (Name × Nat) × List Name :=
  match st.1.lookup child with
  | none => st
  | some d =>
      if d - 1 == 0 then
        (st.1.filter (fun p => p.1 != child), st.2 ++ [child])
      else
        (st.1.map (fun p => if p.1 == child then (p.1, d - 1) else p), st.2)

/-- Process a whole generation: every node of `gen` in order, each of its
successors in adjacency order. -/
def processGen (g : Graph) (gen : List Name) (indeg : List (Name × Nat)) :
    List (Name × Nat) × List Name :=
  gen.foldl (fun st n => (g.succs n).foldl processChild st) (indeg, [])

/-- The `while zero_indegree:` loop of `nx.topological_generations`.
When the zero-in-degree list is exhausted, a non-empty in-degree map
means a cycle: the generator raises `NetworkXUnfeasible` *after* the
final yield, so `list(...)` raises and all partial output is lost.  Fuel
`|nodes| + 1` is enough since every iteration consumes at least one
node. -/
def topoGenLoop (g : Graph) :
    Nat → List Name → List (Name × Nat) → List (List Name) →
    Except NxExc (List (List Name))
  | 0, zero, indeg, acc =>
      if zero.isEmpty then
        if indeg.isEmpty then .ok acc else .error .networkXUnfeasible
      else .error .networkXUnfeasible
  | fuel + 1, zero, indeg, acc =>
      if zero.isEmpty then
        if indeg.isEmpty then .ok acc else .error .networkXUnfeasible
      else
        let st := processGen g zero indeg
        topoGenLoop g fuel st.2 st.1 (acc ++ [zero])

/-- `nx.topological_generations`, materialized by `list(...)`. -/
def topologicalGenerations (g : Graph) : Except NxExc (List (List Name)) :=
  let indeg0 := g.nodes.filterMap
    (fun n => if g.inDegree n > 0 then some (n, g.inDegree n) else none)
  let zero0 := g.nodes.filter (fun n => g.inDegree n == 0)
  topoGenLoop g (g.nodes.length + 1) zero0 indeg0 []

/-- `nx.topological_sort`, materialized by `list(...)`: yields each
generation in order, so the list is the concatenation of the
generations; on a cyclic graph the underlying generator raises
`NetworkXUnfeasible`. -/
def topologicalSort (g : Graph) : Except NxExc (List Name) :=
  (topologicalGenerations g).map List.flatten

/-- `DAGAnalyzer._calculate_execution_stages`: empty graph gives `[]`;
otherwise `list(nx.topological_generations(graph))` inside
`try: ... except nx.NetworkXError: return []`.  On a cyclic graph the
generator raises `NetworkXUnfeasible`, which `except nx.NetworkXError`
does **not** catch, so the exception propagates. -/
def calcExecutionStages (g : Graph) : Except NxExc (List (List Name)) :=
  if g.nodes.length == 0 then .ok []
  else
    match topologicalGenerations g with
    | .ok stages => .ok stages
    | .error e => if e.isNetworkXError then .ok [] else .error e

/-! ## Critical path (`_find_critical_path`) -/

/-- Node weight used by `_find_critical_path`: the `weight` attribute is
set to `job.estimated_duration or 60` when the node has a job record
(Python `or` maps a zero duration to 60), and the DP reads it with
`.get('weight', 0)`, so a node with no job record weighs 0. -/
def jobWeight (jobs : JobMap) (n : Name) : Nat :=
  match jobs.lookup n with
  | some j =>
      match j.estimatedDuration with
      | some d => if d == 0 then 60 else d
      | none => 60
  | none => 0

/-- Association-list store update (Python dict item assignment for a key
already present). -/
def setVal {β : Type} (m : List (Name × β)) (k : Name) (v : β) :
    List (Name × β) :=
  m.map (fun p => if p.1 == k then (p.1, v) else p)

def getNat (m : List (Name × Nat)) (k : Name) : Nat :=
  (m.lookup k).getD 0

/-- The longest-path dynamic programming of `_find_critical_path`:
`dist` and `pred` start as `{node: 0}` / `{node: None}` over the node
list; for each node `n` in topological order and each successor `s`, if
`dist[n] + weight(n) > dist[s]` then update `dist[s]` and point
`pred[s]` at `n`. -/
def criticalDP (g : Graph) (jobs : JobMap) (order : List Name) :
    List (Name × Nat) × List (Name × Option Name) :=
  order.foldl
    (fun st n =>
      (g.succs n).foldl
        (fun st s =>
          let w := jobWeight jobs n
          if getNat st.1 n + w > getNat st.1 s then
            (setVal st.1 s (getNat st.1 n + w), setVal st.2 s (some n))
          else st)
        st)
    (g.nodes.map (fun n => (n, 0)), g.nodes.map (fun n => (n, (none : Option Name))))

/-- Python `max(items, key=lambda x: x[1])`: the first element whose
value no later element strictly exceeds — `max` replaces the current
best only on a strictly greater key. -/
def pyMaxBySnd : List (Name × Nat) → Name × Nat
  | [] => ("", 0)
  | x :: xs => xs.foldl (fun best p => if p.2 > best.2 then p else best) x

/-- Walk predecessor pointers from `cur`, appending each visited node
(the Python `while current is not None` loop).  Along `pred` pointers the
distance strictly decreases, so the chain length is at most `|nodes|`
and the given fuel is never exhausted in real runs. -/
def buildPathRev (pred : List (Name × Option Name)) :
    Nat → Name → List Name
  | 0, _ => []
  | fuel + 1, cur =>
      cur ::
        (match (pred.lookup cur).getD none with
         | some p => buildPathRev pred fuel p
         | none => [])

/-- `DAGAnalyzer._find_critical_path`: empty graph gives `[]`; otherwise
topological sort, longest-path DP, end node by `max` over the distance
dict (node-insertion order), and predecessor walk-back, all inside
`try: ... except nx.NetworkXError: return []` — which again does not
catch the `NetworkXUnfeasible` raised on a cyclic graph. -/
def findCriticalPath (g : Graph) (jobs : JobMap) : Except NxExc (List Name) :=
  if g.nodes.length == 0 then .ok []
  else
    match topologicalSort g with
    | .error e => if e.isNetworkXError then .ok [] else .error e
    | .ok order =>
        let st := criticalDP g jobs order
        let endNode := (pyMaxBySnd st.1).1
        .ok ((buildPathRev st.2 (g.nodes.length + 1) endNode).reverse)

/-! ## Optimization suggestions (`_generate_optimization_suggestions`) -/

/-- The tagged suggestion variants (messages omitted). -/
inductive Suggestion where
  | parallelizeIndependentJobs (a b : Name)
  | splitBottleneckJob (job : Name) (stepCount : Nat)
  | longDependencyChain (path : List Name)
  deriving DecidableEq, Repr

/-- First pass of `_generate_optimization_suggestions`: over every stage
except the last (`execution_stages[:-1]`), for every ordered pair
`job1 < job2` of stage members, when the two share no descendant **and
the stage has exactly one member** a `parallelize_independent_jobs`
suggestion is appended.  (The two conditions are jointly unsatisfiable:
see `parallelize_suggestions_never_fire`.) -/
def parallelizeSuggestions (g : Graph) (stages : List (List Name)) :
    List Suggestion :=
  stages.dropLast.flatMap (fun stage =>
    stage.flatMap (fun job1 =>
      stage.filterMap (fun job2 =>
        if job1 < job2 then
          let shared :=
            (g.descendants job1).filter (fun d => (g.descendants job2).contains d)
          if shared.isEmpty && stage.length == 1 then
            some (.parallelizeIndependentJobs job1 job2)
          else none
        else none)))

/-- Second pass: one `split_bottleneck_job` suggestion per bottleneck
whose job record exists and has more than five steps. -/
def bottleneckSuggestions (jobs : JobMap) (bottlenecks : List Name) :
    List Suggestion :=
  bottlenecks.filterMap (fun b =>
    match jobs.lookup b with
    | some j => if j.stepsCount > 5 then some (.splitBottleneckJob b j.stepsCount) else none
    | none => none)

/-- Model of `nx.all_simple_paths(G, source, target)`.  The Python call
sites pass `source=None, target=None`; networkx first checks
`if source not in G` and raises `NodeNotFound` — `None` is never a node.
A non-`None` source/target are modelled for completeness with a brute
enumeration (never exercised by the embedded code). -/
def allSimplePaths (g : Graph) (source target : Option Name) :
    Except NxExc (List (List Name)) :=
  match source with
  | none => .error .nodeNotFound
  | some s =>
      if !g.nodes.contains s then .error .nodeNotFound
      else
        match target with
        | none => .error .nodeNotFound
        | some t =>
            if !g.nodes.contains t then .error .nodeNotFound
            else
              .ok (((allSublists g.nodes).flatMap allPerms).filter
                (fun p =>
                  p.headD "" == s && p.getLastD "" == t &&
                    (p.zip (p.drop 1)).all (fun e => g.hasEdge e.1 e.2)))

/-- `DAGAnalyzer._generate_optimization_suggestions`: the parallelize
pass, then the bottleneck pass, then the long-chain scan
`for path in nx.all_simple_paths(graph, source=None, target=None)`,
which appends the first path longer than four nodes and breaks.  The
`all_simple_paths` call raises `NodeNotFound` (uncaught here), since
`None` is not a node of any graph. -/
def generateOptimizationSuggestions (jobs : JobMap) (g : Graph)
    (stages : List (List Name)) (bottlenecks : List Name) :
    Except NxExc (List Suggestion) := do
  let s1 := parallelizeSuggestions g stages
  let s2 := bottleneckSuggestions jobs bottlenecks
  let paths ← allSimplePaths g none none
  let s3 :=
    match paths.find? (fun p => p.length > 4) with
    | some p => [Suggestion.longDependencyChain p]
    | none => []
  return s1 ++ s2 ++ s3

/-! ## Timing estimates (`_calculate_serial_time`, `_calculate_parallel_time`) -/

/-- `job.estimated_duration or 60` (Python `or`: `None` and `0` both give
60).  Always at least 1. -/
def Job.weight (j : Job) : Nat :=
  match j.estimatedDuration with
  | some d => if d == 0 then 60 else d
  | none => 60

/-- `_calculate_serial_time`: the sum of every job's weight. -/
def calcSerialTime (jobs : JobMap) : Nat :=
  (jobs.map (fun p => p.2.weight)).sum

/-- Python `max` over a non-empty sequence of naturals. -/
def pyMaxNat : List Nat → Nat
  | [] => 0
  | x :: xs => xs.foldl Nat.max x

/-- Weight of a stage member, looked up as `jobs[job_name]`; stage
members always are job names, so the `none` default is never taken. -/
def stageJobWeight (jobs : JobMap) (n : Name) : Nat :=
  match jobs.lookup n with
  | some j => j.weight
  | none => 60

/-- `_calculate_parallel_time`: the sum over stages of the maximum job
weight within the stage. -/
def calcParallelTime (jobs : JobMap) (stages : List (List Name)) : Nat :=
  (stages.map (fun stage => pyMaxNat (stage.map (stageJobWeight jobs)))).sum

/-! ## Job parallelizer (`parallelizer.py`)

The optimizer works on raw parsed workflow data: a job is a YAML mapping
whose `needs` key (when present) holds a `NeedsValue`.  Other job fields
are irrelevant to the optimizer and are omitted from the record. -/

/-- A raw job mapping as seen by `JobParallelizer`: just its optional
`needs` entry. -/
structure PJob where
  needs : Option NeedsValue := none
  deriving DecidableEq, Repr

abbrev PJobMap := List (Name × PJob)

/-- `job_data.get('needs', [])`. -/
def PJob.needsValue (j : PJob) : NeedsValue := j.needs.getD (.list [])

/-- `JobParallelizer._get_needs_list` (GitHub variant): a string gives a
singleton, a list keeps strings and `job` fields of mappings that have
one, anything else — including a mapping — gives `[]`. -/
def getNeedsList : NeedsValue → List Name
  | .str s => [s]
  | .list items => items.filterMap needsElemName
  | .dict _ => []
  | .otherVal => []

/-- `JobParallelizer._get_gitlab_needs_list`: same as `_get_needs_list`
but a mapping gives its keys. -/
def getGitlabNeedsList : NeedsValue → List Name
  | .str s => [s]
  | .list items => items.filterMap needsElemName
  | .dict keys => keys
  | .otherVal => []

/-- Parsed dependency names of a raw job. -/
def PJob.needNames (j : PJob) : List Name := getNeedsList j.needsValue

/-- The dependency names recorded for key `n` in a raw job map (empty
when the key is absent). -/
def needNamesAt (m : PJobMap) (n : Name) : List Name :=
  match m.lookup n with
  | some j => j.needNames
  | none => []

/-- `m1` has the same keys as `m0` and, pointwise, a dependency-name set
that only shrank.  Both optimizer rewrite loops produce states in this
relation to their input. -/
def JobsShrink (m0 m1 : PJobMap) : Prop :=
  m1.map Prod.fst = m0.map Prod.fst ∧
  ∀ n, ∀ d ∈ needNamesAt m1 n, d ∈ needNamesAt m0 n

/-- `JobParallelizer._build_dependency_graph`: every job name becomes a
node; an edge dependency→job is added only when the dependency is a
known job name. -/
def buildDependencyGraphP (jobs : PJobMap) : Graph :=
  buildFromNeeds (jobs.map (fun p => (p.1, p.2.needNames)))

/-- `JobParallelizer._find_redundant_dependencies`: for every node with
more than one direct dependency, every direct dependency that is an
ancestor of some *other* direct dependency is redundant; only nodes with
a non-empty redundant set appear in the result. -/
def findRedundantDependencies (g : Graph) : List (Name × List Name) :=
  g.nodes.filterMap (fun node =>
    let directDeps := (g.preds node).dedup
    if directDeps.length > 1 then
      let reds :=
        (directDeps.flatMap (fun dep =>
          directDeps.filter (fun other =>
            other != dep && (g.ancestors dep).contains other))).dedup
      if reds.isEmpty then none else some (node, reds)
    else none)

/-- Code-point lexicographic comparison on character lists (the order
Python `sorted` uses on strings). -/
def leChars : List Char → List Char → Bool
  | [], _ => true
  | _ :: _, [] => false
  | a :: as, b :: bs =>
      if a.toNat < b.toNat then true
      else if b.toNat < a.toNat then false
      else leChars as bs

def leName (s t : Name) : Bool := leChars s.data t.data

/-- Insertion sort by the string order (model of Python `sorted`; any
correct sort is extensionally `sorted`). -/
def insertSorted (s : Name) : List Name → List Name
  | [] => [s]
  | x :: xs => if leName s x then s :: x :: xs else x :: insertSorted s xs

def sortNames (l : List Name) : List Name := l.foldr insertSorted []

/-- Append `name` to the group keyed by `key`, creating the group at the
end on first sight (Python dict insertion order). -/
def addToGroup (acc : List (List Name × List Name)) (key : List Name)
    (name : Name) : List (List Name × List Name) :=
  match acc with
  | [] => [(key, [name])]
  | (k, ns) :: rest =>
      if k == key then (k, ns ++ [name]) :: rest
      else (k, ns) :: addToGroup rest key name

/-- The `jobs_by_deps` grouping of `_find_parallelizable_jobs`: jobs
keyed by `tuple(sorted(needs))`. -/
def groupByDeps (jobs : PJobMap) : List (List Name × List Name) :=
  jobs.foldl (fun acc p => addToGroup acc (sortNames p.2.needNames) p.1) []

/-- `JobParallelizer._find_parallelizable_jobs`: the generation pass
(guarded by `try: ... except nx.NetworkXError`, which misses the
`NetworkXUnfeasible` raised on cycles, so that exception propagates)
collects, per generation of more than one node, the members that no
other member of the same generation points into, keeping groups of more
than one; then groups of jobs with identical sorted dependency lists are
appended when not already present. -/
def findParallelizableJobs (jobs : PJobMap) (g : Graph) :
    Except NxExc (List (List Name)) := do
  let genGroups ←
    match topologicalGenerations g with
    | .ok gens =>
        pure (gens.filterMap (fun gen =>
          if gen.length > 1 then
            let indep := gen.filter (fun j =>
              !(gen.any (fun o => o != j && g.hasEdge o j)))
            if indep.length > 1 then some indep else none
          else none))
    | .error e =>
        if e.isNetworkXError then pure [] else throw e
  let idGroups :=
    (groupByDeps jobs).filterMap (fun p =>
      if p.2.length > 1 then some p.2 else none)
  return idGroups.foldl
    (fun acc grp => if acc.contains grp then acc else acc ++ [grp])
    genGroups

/-- Re-encode a reduced needs list the way the optimizer writes it back:
`job['needs'] = new_needs if len(new_needs) > 1 else new_needs[0]`, and
`job.pop('needs', None)` when nothing is left. -/
def encodeNeeds : List Name → Option NeedsValue
  | [] => none
  | [n] => some (.str n)
  | l => some (.list (l.map .str))

/-- Update the value stored under `k` (a no-op when `k` is absent). -/
def updateJob (m : PJobMap) (k : Name) (f : PJob → PJob) : PJobMap :=
  m.map (fun p => if p.1 == k then (p.1, f p.2) else p)

/-- Exceptions the optimizer bodies can raise: a propagated networkx
exception, a `KeyError` (e.g. `optimized_workflow['jobs']` when the
parsed content has no `jobs` key), or a YAML parse failure. -/
inductive PyExc where
  | nx (e : NxExc)
  | keyError
  | parseError
  deriving DecidableEq, Repr

/-- A change-log entry (message strings omitted; `removed` is empty for
`enable_parallelization` entries, which record none). -/
structure Change where
  kind : String
  job : Name
  removed : List Name := []
  deriving DecidableEq, Repr

/-- A parsed GitHub workflow document, as far as the optimizer reads it:
its optional `jobs` mapping. -/
structure Workflow where
  jobs : Option PJobMap := none
  deriving DecidableEq, Repr

/-- A parsed GitLab document: top-level entries, each either a mapping
(modelled by `some PJob`) or a non-mapping value (`none`). -/
abbrev GLData := List (Name × Option PJob)

/-- The external YAML collaborator: `yaml.safe_load` (`none` models a
parse error or a document of the wrong shape) and `yaml.dump`
(`_workflow_to_yaml`), specialized to the two document shapes the
optimizer handles.  The engine treats both as opaque. -/
structure ContentModel where
  parseGh : String → Option Workflow
  dumpGh : Workflow → String
  parseGl : String → Option GLData
  dumpGl : GLData → String

/-- The redundant-dependency removal loop of `_optimize_github_actions`:
for each `(job_name, deps_to_remove)`, `optimized_workflow['jobs']` is
accessed (raising `KeyError` when absent), and when the job is present
its needs list is filtered; a shorter list is written back re-encoded
(or the key popped) and a change is logged.  `redStep` is one iteration
of the loop, on the running (workflow, change-log) state. -/
def redStep (acc : Except PyExc (Workflow × List Change))
    (entry : Name × List Name) : Except PyExc (Workflow × List Change) := do
  let (ow, changes) ← acc
  match ow.jobs with
  | none => throw .keyError
  | some jm =>
      if (jm.map Prod.fst).contains entry.1 then
        match jm.lookup entry.1 with
        | none => pure (ow, changes)
        | some job =>
            let currentNeeds := job.needNames
            let newNeeds := currentNeeds.filter (fun d => !entry.2.contains d)
            if newNeeds.length != currentNeeds.length then
              pure
                ({ jobs := some (updateJob jm entry.1
                    (fun j => { j with needs := encodeNeeds newNeeds })) },
                  changes ++ [⟨"remove_redundant_dependency", entry.1, entry.2⟩])
            else pure (ow, changes)
      else pure (ow, changes)

def applyRedundantRemovals (ow : Workflow) (redundant : List (Name × List Name))
    (changes : List Change) : Except PyExc (Workflow × List Change) :=
  redundant.foldl redStep (pure (ow, changes))

/-- `any pair of the list satisfies p` in the nested-loop order of the
`sequential` check. -/
def anyPair (l : List Name) (p : Name → Name → Bool) : Bool :=
  match l with
  | [] => false
  | x :: xs => xs.any (p x) || anyPair xs p

/-- The parallelization-enabling loop of `_optimize_github_actions`: for
each candidate group of more than one job, when some pair of its members
is connected by an edge (in either direction) of the *original* graph,
every member's needs list is stripped of the other members; shortened
lists are re-encoded and each touched job logs an
`enable_parallelization` change.  `parJobStep` is one member update. -/
def parJobStep (jobSet : List Name)
    (acc : Except PyExc (Workflow × List Change)) (job : Name) :
    Except PyExc (Workflow × List Change) := do
  let (ow, changes) ← acc
  match ow.jobs with
  | none => throw .keyError
  | some jm =>
      if (jm.map Prod.fst).contains job then
        match jm.lookup job with
        | none => pure (ow, changes)
        | some jd =>
            let needs := jd.needNames
            let newNeeds := needs.filter
              (fun dep => !jobSet.contains dep || dep == job)
            if newNeeds.length != needs.length then
              pure
                ({ jobs := some (updateJob jm job
                    (fun j => { j with needs := encodeNeeds newNeeds })) },
                  changes ++ [⟨"enable_parallelization", job, []⟩])
            else pure (ow, changes)
      else pure (ow, changes)

/-- One candidate group of the parallelization-enabling loop: when some
pair of the group is connected by an edge of the *original* graph, every
member is stripped of its intra-group dependencies. -/
def parSetStep (g : Graph) (acc : Except PyExc (Workflow × List Change))
    (jobSet : List Name) : Except PyExc (Workflow × List Change) := do
  let (ow, changes) ← acc
  if jobSet.length > 1 then
    let sequential := anyPair jobSet (fun a b => g.hasEdge a b || g.hasEdge b a)
    if sequential then
      jobSet.foldl (parJobStep jobSet) (pure (ow, changes))
    else pure (ow, changes)
  else pure (ow, changes)

def applyParallelization (g : Graph) (ow : Workflow)
    (parallelizable : List (List Name)) (changes : List Change) :
    Except PyExc (Workflow × List Change) :=
  parallelizable.foldl (parSetStep g) (pure (ow, changes))

/-- The `try:` body of `_optimize_github_actions`: build the graph from
`workflow_data`, compute redundant dependencies and parallelizable
groups, parse the content, apply both rewrite loops, and return either
the re-serialized workflow with the change log, or the original content
with no changes when nothing was rewritten. -/
def optimizeGithubBody (cm : ContentModel) (content : String) (wd : Workflow) :
    Except PyExc (String × List Change) := do
  let jobs := wd.jobs.getD []
  let graph := buildDependencyGraphP jobs
  let redundantDeps := findRedundantDependencies graph
  let parallelizable ← (findParallelizableJobs jobs graph).mapError PyExc.nx
  let ow ←
    match cm.parseGh content with
    | some w => pure w
    | none => throw .parseError
  let (ow, changes) ← applyRedundantRemovals ow redundantDeps []
  let (ow, changes) ← applyParallelization graph ow parallelizable changes
  if changes.isEmpty then return (content, [])
  else return (cm.dumpGh ow, changes)

/-- `JobParallelizer._optimize_github_actions`: the body above inside
`try: ... except Exception: return content, []`. -/
def optimizeGithubActions (cm : ContentModel) (content : String)
    (wd : Workflow) : String × List Change :=
  match optimizeGithubBody cm content wd with
  | .ok r => r
  | .error _ => (content, [])

def glSpecialKeys : List Name :=
  ["stages", "variables", "default", "include", "workflow"]

/-- The GitLab job set: top-level mappings whose key is not special. -/
def glJobs (wd : GLData) : PJobMap :=
  wd.filterMap (fun p =>
    match p.2 with
    | some j => if glSpecialKeys.contains p.1 then none else some (p.1, j)
    | none => none)

/-- `JobParallelizer._build_gitlab_dependency_graph` (uses the GitLab
needs parser, and only reads jobs that have a `needs` key). -/
def buildGitlabDependencyGraph (jobs : PJobMap) : Graph :=
  buildFromNeeds (jobs.map (fun p =>
    (p.1, match p.2.needs with
          | none => []
          | some nv => getGitlabNeedsList nv)))

/-- The redundant-dependency removal loop of `_optimize_gitlab_ci`:
jobs are looked up at the top level of the parsed document; only jobs
with a `needs` key are touched; the reduced list is written back as a
plain list (never collapsed to a single string) or the key popped. -/
def applyGlRemovals (ow : GLData) (redundant : List (Name × List Name)) :
    GLData × List Change :=
  redundant.foldl
    (fun st entry =>
      let (ow, changes) := st
      if (ow.map Prod.fst).contains entry.1 then
        match ow.lookup entry.1 with
        | some (some job) =>
            match job.needs with
            | none => (ow, changes)
            | some nv =>
                let currentNeeds := getGitlabNeedsList nv
                let newNeeds := currentNeeds.filter (fun d => !entry.2.contains d)
                if newNeeds.length != currentNeeds.length then
                  let needsVal : Option NeedsValue :=
                    if newNeeds.isEmpty then none
                    else some (.list (newNeeds.map .str))
                  (ow.map (fun p =>
                      if p.1 == entry.1 then (p.1, some (⟨needsVal⟩ : PJob))
                      else p),
                    changes ++ [⟨"remove_redundant_dependency", entry.1, entry.2⟩])
                else (ow, changes)
        | _ => (ow, changes)
      else (ow, changes))
    (ow, [])

/-- The `try:` body of `_optimize_gitlab_ci`. -/
def optimizeGitlabBody (cm : ContentModel) (content : String) (wd : GLData) :
    Except PyExc (String × List Change) := do
  let ow ←
    match cm.parseGl content with
    | some w => pure w
    | none => throw .parseError
  let jobs := glJobs wd
  let graph := buildGitlabDependencyGraph jobs
  let redundantDeps := findRedundantDependencies graph
  let (ow, changes) := applyGlRemovals ow redundantDeps
  if changes.isEmpty then return (content, [])
  else return (cm.dumpGl ow, changes)

/-- `JobParallelizer._optimize_gitlab_ci`: body inside
`try: ... except Exception: return content, []`. -/
def optimizeGitlabCI (cm : ContentModel) (content : String) (wd : GLData) :
    String × List Change :=
  match optimizeGitlabBody cm content wd with
  | .ok r => r
  | .error _ => (content, [])

/-- Parsed workflow data handed to `optimize_parallelization`, shaped
per platform. -/
inductive WData where
  | gh (w : Workflow)
  | gl (d : GLData)
  deriving DecidableEq, Repr

/-- Shape coercions for the platform dispatch (in Python the same dict is
read duck-typed; a mismatched shape reads as an empty document). -/
def WData.asGithub : WData → Workflow
  | .gh w => w
  | .gl _ => {}

def WData.asGitlab : WData → GLData
  | .gl d => d
  | .gh _ => []

/-- `JobParallelizer.optimize_parallelization`: dispatch on the platform
string; an unsupported platform logs a warning and returns the content
unchanged with no changes. -/
def optimizeParallelization (cm : ContentModel) (content : String)
    (wd : WData) (platform : String) : String × List Change :=
  if platform == "github_actions" then
    optimizeGithubActions cm content wd.asGithub
  else if platform == "gitlab_ci" then
    optimizeGitlabCI cm content wd.asGitlab
  else (content, [])

/-- The effect of one `_optimize_github_actions` run on the jobs mapping
itself, in the normal case where the YAML content parses to the same
data that `workflow_data` holds: compute redundant dependencies and
parallelizable groups from the map's graph, then apply both rewrite
loops to the map. -/
def optimizeJobsMap (m : PJobMap) : Except PyExc (PJobMap × List Change) := do
  let graph := buildDependencyGraphP m
  let redundantDeps := findRedundantDependencies graph
  let parallelizable ← (findParallelizableJobs m graph).mapError PyExc.nx
  let (ow, changes) ← applyRedundantRemovals ⟨some m⟩ redundantDeps []
  let (ow, changes) ← applyParallelization graph ow parallelizable changes
  return (ow.jobs.getD [], changes)

/-! ## Concrete fixtures used by the theorems -/

/-- The cycle scenario `x:[y]`, `y:[x]`. -/
def jobsXY : JobMap := [("x", { needs := ["y"] }), ("y", { needs := ["x"] })]

def gXY : Graph := buildDependencyGraph jobsXY

/-- Scenario C: `a:[]`, `b:[a]`, `c:[a,b]`. -/
def jobsC : JobMap :=
  [("a", { needs := [] }), ("b", { needs := ["a"] }),
   ("c", { needs := ["a", "b"] })]

def gC : Graph := buildDependencyGraph jobsC

/-- Tie-break example: two weighted chains `a(60) → b(60) → u` and
`c(120) → v`, jobs inserted in the order `u, v, a, b, c`.  Both sinks
end with distance 120. -/
def jobs5 : JobMap :=
  [("u", { needs := ["b"], estimatedDuration := some 60 }),
   ("v", { needs := ["c"], estimatedDuration := some 60 }),
   ("a", { needs := [], estimatedDuration := some 60 }),
   ("b", { needs := ["a"], estimatedDuration := some 60 }),
   ("c", { needs := [], estimatedDuration := some 120 })]

def g5 : Graph := buildDependencyGraph jobs5

/-- Scenario C as raw parallelizer input. -/
def pmC : PJobMap :=
  [("a", { needs := none }),
   ("b", { needs := some (.str "a") }),
   ("c", { needs := some (.list [.str "a", .str "b"]) })]

/-- Scenario A: `build:[]`, `test:[build]`, `deploy:[build,test]`, all
with 60-second durations. -/
def jobsA : JobMap :=
  [("build", { needs := [], estimatedDuration := some 60 }),
   ("test", { needs := ["build"], estimatedDuration := some 60 }),
   ("deploy", { needs := ["build", "test"], estimatedDuration := some 60 })]

/-- A map with two dangling references: `a:[zz, b]`, `b:[zz]`. -/
def jobsM : JobMap :=
  [("a", { needs := ["zz", "b"] }), ("b", { needs := ["zz"] })]

/-- Trivial content model used to instantiate theorems about the
optimizer wrapper. -/
def cmTriv : ContentModel :=
  ⟨fun _ => none, fun _ => "", fun _ => none, fun _ => ""⟩

/-- Scenario C after one optimizer run: `c`'s needs reduced to `b`. -/
def pmCOpt : PJobMap :=
  [("a", { needs := none }),
   ("b", { needs := some (.str "a") }),
   ("c", { needs := some (.str "b") })]

/-! ## Association-list lemmas -/

theorem lookup_mem {β : Type} {l : List (Name × β)} {k : Name} {v : β}
    (h : l.lookup k = some v) : (k, v) ∈ l := by
  induction l with
  | nil => simp [List.lookup] at h
  | cons p t ih =>
      rw [List.lookup] at h
      by_cases hk : k = p.1
      · subst hk
        simp at h
        subst h
        exact .head _
      · have hb : (k == p.1) = false := by simpa using hk
        rw [hb] at h
        exact .tail _ (ih h)

theorem lookup_mem_keys {β : Type} {l : List (Name × β)} {k : Name} {v : β}
    (h : l.lookup k = some v) : k ∈ l.map Prod.fst :=
  List.mem_map.mpr ⟨(k, v), lookup_mem h, rfl⟩

theorem mem_lookup_of_nodup {β : Type} {l : List (Name × β)}
    (hnd : (l.map Prod.fst).Nodup) {k : Name} {v : β} (h : (k, v) ∈ l) :
    l.lookup k = some v := by
  induction l with
  | nil => cases h
  | cons p t ih =>
      rw [List.map_cons, List.nodup_cons] at hnd
      rcases List.mem_cons.mp h with h1 | h1
      · subst h1
        simp [List.lookup]
      · have hk : k ≠ p.1 := by
          intro he
          exact hnd.1 (he ▸ List.mem_map.mpr ⟨(k, v), h1, rfl⟩)
        have hb : (k == p.1) = false := by simpa using hk
        rw [List.lookup, hb]
        exact ih hnd.2 h1

theorem lookup_of_not_mem_keys {β : Type} {l : List (Name × β)} {k : Name}
    (h : k ∉ l.map Prod.fst) : l.lookup k = none := by
  induction l with
  | nil => rfl
  | cons p t ih =>
      rw [List.map_cons, List.mem_cons] at h
      push_neg at h
      have hb : (k == p.1) = false := by simpa using h.1
      rw [List.lookup, hb]
      exact ih h.2

theorem name_contains_iff (l : List Name) (x : Name) :
    l.contains x = true ↔ x ∈ l := by
  simp

/-! ## Basic graph lemmas -/

theorem addNode_edges (g : Graph) (n : Name) :
    (g.addNode n).edges = g.edges := by
  unfold Graph.addNode
  split <;> rfl

theorem addNode_of_mem {g : Graph} {n : Name} (h : n ∈ g.nodes) :
    g.addNode n = g := by
  unfold Graph.addNode
  rw [if_pos h]

theorem addNode_nodes_of_not_mem {g : Graph} {n : Name} (h : n ∉ g.nodes) :
    (g.addNode n).nodes = g.nodes ++ [n] := by
  unfold Graph.addNode
  rw [if_neg h]

theorem addEdge_nodes_of_mem {g : Graph} {u v : Name} (hu : u ∈ g.nodes)
    (hv : v ∈ g.nodes) : (g.addEdge u v).nodes = g.nodes := by
  show ((g.addNode u).addNode v).nodes = g.nodes
  rw [addNode_of_mem hu, addNode_of_mem hv]

theorem mem_addEdge_edges {g : Graph} {u v : Name} {e : Name × Name} :
    (e ∈ (g.addEdge u v).edges ↔ e ∈ g.edges ∨ e = (u, v)) := by
  show e ∈ (if (u, v) ∈ g.edges then g.edges else g.edges ++ [(u, v)]) ↔ _
  by_cases h : (u, v) ∈ g.edges
  · rw [if_pos h]
    constructor
    · exact .inl
    · rintro (h1 | rfl)
      · exact h1
      · exact h
  · rw [if_neg h]
    simp

theorem mem_succs {g : Graph} {u w : Name} :
    w ∈ g.succs u ↔ (u, w) ∈ g.edges := by
  unfold Graph.succs
  rw [List.mem_map]
  constructor
  · rintro ⟨e, he, rfl⟩
    rw [List.mem_filter] at he
    have : e.1 = u := by simpa using he.2
    exact this ▸ he.1
  · intro h
    exact ⟨(u, w), List.mem_filter.mpr ⟨h, by simp⟩, rfl⟩

theorem mem_preds {g : Graph} {u v : Name} :
    u ∈ g.preds v ↔ (u, v) ∈ g.edges := by
  unfold Graph.preds
  rw [List.mem_map]
  constructor
  · rintro ⟨e, he, rfl⟩
    rw [List.mem_filter] at he
    have : e.2 = v := by simpa using he.2
    exact this ▸ he.1
  · intro h
    exact ⟨(u, v), List.mem_filter.mpr ⟨h, by simp⟩, rfl⟩

/-! ## Graph-builder lemmas -/

theorem foldl_addNode_nodes :
    ∀ (ks : List Name) (g : Graph), ks.Nodup → (∀ k ∈ ks, k ∉ g.nodes) →
      (ks.foldl Graph.addNode g).nodes = g.nodes ++ ks := by
  intro ks
  induction ks with
  | nil => intro g _ _; simp
  | cons k t ih =>
      intro g hnd hk
      rw [List.nodup_cons] at hnd
      rw [List.foldl_cons]
      have hkg : k ∉ g.nodes := hk k (.head _)
      have ht : ∀ k' ∈ t, k' ∉ (g.addNode k).nodes := by
        intro k' hk'
        rw [addNode_nodes_of_not_mem hkg]
        intro hmem
        rcases List.mem_append.mp hmem with h1 | h1
        · exact hk k' (.tail _ hk') h1
        · exact hnd.1 (List.mem_singleton.mp h1 ▸ hk')
      rw [ih (g.addNode k) hnd.2 ht, addNode_nodes_of_not_mem hkg]
      simp

theorem foldl_addNode_edges :
    ∀ (ks : List Name) (g : Graph), (ks.foldl Graph.addNode g).edges = g.edges := by
  intro ks
  induction ks with
  | nil => intro g; rfl
  | cons k t ih => intro g; rw [List.foldl_cons, ih, addNode_edges]

theorem mem_addEdge_of_mem {g : Graph} {u v : Name} {e : Name × Name}
    (h : e ∈ g.edges) : e ∈ (g.addEdge u v).edges :=
  mem_addEdge_edges.mpr (.inl h)

theorem self_mem_addEdge {g : Graph} {u v : Name} :
    (u, v) ∈ (g.addEdge u v).edges :=
  mem_addEdge_edges.mpr (.inr rfl)

/-- Generic monotonicity of edge sets through a fold whose step never
removes edges. -/
theorem foldl_edges_mono {α : Type} (step : Graph → α → Graph)
    (hstep : ∀ g a, ∀ e ∈ g.edges, e ∈ (step g a).edges) :
    ∀ (l : List α) (g : Graph), ∀ e ∈ g.edges, e ∈ (l.foldl step g).edges := by
  intro l
  induction l with
  | nil => intro g e he; exact he
  | cons a t ih =>
      intro g e he
      rw [List.foldl_cons]
      exact ih (step g a) e (hstep g a e he)

theorem edgeStep_mono (K : List Name) :
    ∀ (g : Graph) (p : Name × List Name), ∀ e ∈ g.edges, e ∈ (edgeStep K g p).edges := by
  intro g p
  unfold edgeStep
  refine foldl_edges_mono _ ?_ p.2 g
  intro g dep e he
  split
  · exact mem_addEdge_of_mem he
  · exact he

theorem buildFromNeeds_eq_fold (pairs : List (Name × List Name)) :
    buildFromNeeds pairs =
      pairs.foldl (edgeStep (pairs.map Prod.fst))
        ((pairs.map Prod.fst).foldl Graph.addNode Graph.empty) := by
  unfold buildFromNeeds edgeStep
  rw [← List.foldl_map (f := Prod.fst) (g := Graph.addNode)]

theorem buildFromNeeds_nodes (pairs : List (Name × List Name))
    (hnd : (pairs.map Prod.fst).Nodup) :
    (buildFromNeeds pairs).nodes = pairs.map Prod.fst := by
  rw [buildFromNeeds_eq_fold]
  set K := pairs.map Prod.fst with hK
  have h0 : (K.foldl Graph.addNode Graph.empty).nodes = K := by
    rw [foldl_addNode_nodes K Graph.empty hnd (by intro k _ h; cases h)]
    rfl
  refine List.foldlRecOn (motive := fun gr => gr.nodes = K) pairs (edgeStep K) _ h0 ?_
  intro g hg p hp
  unfold edgeStep
  refine List.foldlRecOn (motive := fun gr => gr.nodes = K) p.2 _ g hg ?_
  intro g' hg' dep _
  split
  · next hdep =>
      refine addEdge_nodes_of_mem ?_ ?_ |>.trans hg'
      · rw [hg']
        exact (name_contains_iff K dep).mp hdep
      · rw [hg', hK]
        exact List.mem_map.mpr ⟨p, hp, rfl⟩
  · exact hg'

theorem mem_edges_buildFromNeeds (pairs : List (Name × List Name))
    (hnd : (pairs.map Prod.fst).Nodup) (e : Name × Name) :
    e ∈ (buildFromNeeds pairs).edges ↔
      ∃ p ∈ pairs, e.2 = p.1 ∧ e.1 ∈ p.2 ∧ e.1 ∈ pairs.map Prod.fst := by
  constructor
  · rw [buildFromNeeds_eq_fold]
    set K := pairs.map Prod.fst with hK
    have h0 : (K.foldl Graph.addNode Graph.empty).nodes = K ∧
        ∀ e' ∈ (K.foldl Graph.addNode Graph.empty).edges,
          ∃ p ∈ pairs, e'.2 = p.1 ∧ e'.1 ∈ p.2 ∧ e'.1 ∈ K := by
      constructor
      · rw [foldl_addNode_nodes K Graph.empty hnd (by intro k _ h; cases h)]
        rfl
      · rw [foldl_addNode_edges]
        intro e' he'
        cases he'
    have hstep : ∀ g, (g.nodes = K ∧ ∀ e' ∈ g.edges,
          ∃ p ∈ pairs, e'.2 = p.1 ∧ e'.1 ∈ p.2 ∧ e'.1 ∈ K) →
        ∀ p ∈ pairs, ((edgeStep K g p).nodes = K ∧ ∀ e' ∈ (edgeStep K g p).edges,
          ∃ q ∈ pairs, e'.2 = q.1 ∧ e'.1 ∈ q.2 ∧ e'.1 ∈ K) := by
      intro g hg p hp
      unfold edgeStep
      refine List.foldlRecOn
        (motive := fun gr => gr.nodes = K ∧ ∀ e' ∈ gr.edges,
          ∃ q ∈ pairs, e'.2 = q.1 ∧ e'.1 ∈ q.2 ∧ e'.1 ∈ K) p.2 _ g hg ?_
      intro g' hg' dep hdep
      split
      · next hc =>
          have hu : dep ∈ g'.nodes := by
            rw [hg'.1]
            exact (name_contains_iff K dep).mp hc
          have hv : p.1 ∈ g'.nodes := by
            rw [hg'.1, hK]
            exact List.mem_map.mpr ⟨p, hp, rfl⟩
          refine ⟨(addEdge_nodes_of_mem hu hv).trans hg'.1, ?_⟩
          intro e' he'
          rcases mem_addEdge_edges.mp he' with h1 | h1
          · exact hg'.2 e' h1
          · subst h1
            exact ⟨p, hp, rfl, hdep, (name_contains_iff K dep).mp hc⟩
      · exact hg'
    intro he
    exact (List.foldlRecOn
      (motive := fun gr => gr.nodes = K ∧ ∀ e' ∈ gr.edges,
        ∃ q ∈ pairs, e'.2 = q.1 ∧ e'.1 ∈ q.2 ∧ e'.1 ∈ K)
      pairs (edgeStep K) _ h0 hstep).2 e he
  · rintro ⟨p, hp, h2, h1, hk⟩
    rw [buildFromNeeds_eq_fold]
    obtain ⟨l1, l2, rfl⟩ := List.append_of_mem hp
    rw [List.foldl_append, List.foldl_cons]
    refine foldl_edges_mono _ (edgeStep_mono _) l2 _ e ?_
    unfold edgeStep
    obtain ⟨m1, m2, hm⟩ := List.append_of_mem h1
    rw [hm, List.foldl_append, List.foldl_cons]
    have hc : ((l1 ++ p :: l2).map Prod.fst).contains e.1 = true :=
      (name_contains_iff _ _).mpr hk
    rw [if_pos hc]
    refine foldl_edges_mono _ ?_ m2 _ e ?_
    · intro g a e' he'
      split
      · exact mem_addEdge_of_mem he'
      · exact he'
    · have : e = (e.1, p.1) := by
        rw [Prod.ext_iff]
        exact ⟨rfl, h2⟩
      rw [this]
      exact self_mem_addEdge

/-! ## Reachability lemmas -/

theorem reachesIn_mono {g g' : Graph}
    (hsub : ∀ e ∈ g'.edges, e ∈ g.edges) :
    ∀ (fuel : Nat) (u v : Name), g'.reachesIn fuel u v = true →
      g.reachesIn fuel u v = true := by
  intro fuel
  induction fuel with
  | zero => intro u v h; exact h
  | succ k ih =>
      intro u v h
      rw [Graph.reachesIn] at h ⊢
      rcases Bool.or_eq_true _ _ |>.mp h with h1 | h1
      · exact Bool.or_eq_true _ _ |>.mpr (.inl h1)
      · refine Bool.or_eq_true _ _ |>.mpr (.inr ?_)
        rw [List.any_eq_true] at h1 ⊢
        obtain ⟨w, hw, hr⟩ := h1
        exact ⟨w, mem_succs.mpr (hsub _ (mem_succs.mp hw)), ih w v hr⟩

theorem mem_ancestors {g : Graph} {v u : Name} :
    u ∈ g.ancestors v ↔
      u ∈ g.nodes ∧ u ≠ v ∧ g.reachesIn g.nodes.length u v = true := by
  unfold Graph.ancestors
  rw [List.mem_filter]
  simp [and_assoc]

theorem ancestors_mono {g g' : Graph} (hn : g'.nodes = g.nodes)
    (hsub : ∀ e ∈ g'.edges, e ∈ g.edges) {v u : Name}
    (h : u ∈ g'.ancestors v) : u ∈ g.ancestors v := by
  rw [mem_ancestors] at h ⊢
  rw [hn] at h
  exact ⟨h.1, h.2.1, reachesIn_mono hsub _ u v h.2.2⟩

/-! ## C1 — cycle handling of the scheduling analysis -/

/-- C1: the claim says that on the cyclic map `x:[y]`, `y:[x]` the
analysis reports one `CircularDependency` with members `{x, y}` and
returns empty stages and an empty critical path.  The issue is reported,
but `_calculate_execution_stages` and `_find_critical_path` do **not**
return `[]`: `nx.topological_generations` / `nx.topological_sort` raise
`NetworkXUnfeasible`, which the guarding `except nx.NetworkXError`
clauses cannot catch (`NetworkXUnfeasible` is not a subclass of
`NetworkXError`), so `analyze_workflow` propagates the exception instead
of returning a result. -/
theorem cycle_scenario_raises_unfeasible :
    checkDependencyIssues gXY jobsXY = [.circular ["x", "y"]] ∧
    calcExecutionStages gXY = .error .networkXUnfeasible ∧
    findCriticalPath gXY jobsXY = .error .networkXUnfeasible := by
  refine ⟨?_, ?_, ?_⟩ <;> decide

/-! ## C2 — direction of the redundant-dependency report -/

/-- C2: on scenario C the claim (and the spec) expect
`RedundantDependency(job=c, dependency=a, implied_by={b})` — `a` is the
redundant edge because it is an ancestor of the other direct dependency
`b`.  The code reports the roles swapped: `dependency=b`,
`redundant_with={a}` (its suggestion would remove `b`, the edge that is
*not* redundant), because `_check_dependency_issues` flags the
dependency whose ancestor set meets the direct set rather than the
ancestor itself, inverting the direction that
`JobParallelizer._find_redundant_dependencies` implements. -/
theorem redundant_direction_inverted :
    checkDependencyIssues gC jobsC = [DepIssue.redundant "c" "b" ["a"]] := by
  decide

/-! ## C3 — the parallelize-independent-jobs pass is dead code -/

/-- C3: the claim says a stage with at least two independent jobs
sharing no descendant yields `ParallelizeIndependentJobs` suggestions.
It never does: the code's guard requires `len(stage) == 1` while the
pair `job1 < job2` needs two distinct members of that same stage, so the
two conditions are jointly unsatisfiable and the pass emits nothing on
every input. -/
theorem parallelize_suggestions_never_fire (g : Graph)
    (stages : List (List Name)) : parallelizeSuggestions g stages = [] := by
  unfold parallelizeSuggestions
  rw [List.flatMap_eq_nil_iff]
  intro stage _
  rw [List.flatMap_eq_nil_iff]
  intro job1 h1
  rw [List.filterMap_eq_nil_iff]
  intro job2 h2
  by_cases hlen : stage.length = 1
  · obtain ⟨x, rfl⟩ := List.length_eq_one.mp hlen
    have e1 : job1 = x := List.mem_singleton.mp h1
    have e2 : job2 = x := List.mem_singleton.mp h2
    subst e1; subst e2
    simp
  · have hb : (stage.length == 1) = false := by
      simpa using hlen
    simp [hb]

/-! ## C4 — long-chain detection -/

/-- C4: the claim says suggestion generation returns normally, emitting
one `LongDependencyChain` when a path longer than four nodes exists and
none otherwise.  It never returns at all: the scan calls
`nx.all_simple_paths(graph, source=None, target=None)`, and networkx
raises `NodeNotFound` because `None` is not a node of any graph; nothing
catches it, so `analyze_workflow` raises on every input. -/
theorem suggestion_generation_always_raises (jobs : JobMap) (g : Graph)
    (stages : List (List Name)) (bottlenecks : List Name) :
    generateOptimizationSuggestions jobs g stages bottlenecks =
      .error .nodeNotFound := by
  rfl

/-! ## C9 — handling of malformed `needs` declarations -/

/-- C9 counterexample: the claim says the engine fails fast on a `needs`
list containing an element that is neither a name string nor a mapping
with a `job` field, and on a `needs` value of unrecognized type.
`_parse_needs` is total: it returns a normal (guessed) result on both
violating inputs instead of rejecting the run. -/
theorem parse_needs_returns_on_garbage :
    parseNeeds (.list [.otherElem]) = [] ∧ parseNeeds .otherVal = [] :=
  ⟨rfl, rfl⟩

/-- C9 amended: `_parse_needs` never rejects; a list element that is
neither a name string nor a mapping with a `job` field is silently
skipped (removing it changes nothing), and a `needs` value of
unrecognized type yields the empty dependency list. -/
theorem parse_needs_skips_unrecognized (pre post : List NeedsElem) :
    parseNeeds (.list (pre ++ .otherElem :: post)) =
      parseNeeds (.list (pre ++ post)) ∧
    parseNeeds .otherVal = [] := by
  refine ⟨?_, rfl⟩
  simp [parseNeeds, needsElemName]

/-! ## C8 — dangling dependencies produce issues, never edges -/

/-- C8: for a job map with `N` dangling dependency references, the built
graph's node set is exactly the job-name set, every edge endpoint is a
known job name (none of the dangling references becomes an edge), and
`_check_dependency_issues` emits exactly `N` `missing_dependency`
issues — one per (job, dangling-name) occurrence. -/
theorem graph_builder_missing_deps (jobs : JobMap)
    (hnd : (jobs.map Prod.fst).Nodup) :
    (buildDependencyGraph jobs).nodes = jobs.map Prod.fst ∧
    (∀ e ∈ (buildDependencyGraph jobs).edges,
      e.1 ∈ jobs.map Prod.fst ∧ e.2 ∈ jobs.map Prod.fst) ∧
    (checkDependencyIssues (buildDependencyGraph jobs) jobs).countP isMissingIssue =
      (jobs.map (fun p =>
        (p.2.needs.filter (fun d => !(jobs.map Prod.fst).contains d)).length)).sum := by
  have hk : (jobs.map (fun p => (p.1, p.2.needs))).map Prod.fst = jobs.map Prod.fst := by
    rw [List.map_map]
    rfl
  have hnd' : ((jobs.map (fun p => (p.1, p.2.needs))).map Prod.fst).Nodup := by
    rw [hk]; exact hnd
  refine ⟨?_, ?_, ?_⟩
  · rw [buildDependencyGraph, buildFromNeeds_nodes _ hnd', hk]
  · intro e he
    rw [buildDependencyGraph] at he
    obtain ⟨p, hp, h2, h1, hkk⟩ := (mem_edges_buildFromNeeds _ hnd' e).mp he
    obtain ⟨q, hq, rfl⟩ := List.mem_map.mp hp
    refine ⟨by rw [hk] at hkk; exact hkk, ?_⟩
    rw [h2]
    exact List.mem_map.mpr ⟨q, hq, rfl⟩
  · unfold checkDependencyIssues
    rw [List.countP_append, List.countP_append]
    have hc : (if isDag (buildDependencyGraph jobs) then []
        else (simpleCycles (buildDependencyGraph jobs)).map .circular).countP
          isMissingIssue = 0 := by
      split
      · rfl
      · rw [List.countP_eq_zero]
        intro a ha
        obtain ⟨c, _, rfl⟩ := List.mem_map.mp ha
        simp [isMissingIssue]
    have hr : ((buildDependencyGraph jobs).nodes.flatMap (fun jobName =>
        let directDeps := ((buildDependencyGraph jobs).preds jobName).dedup
        directDeps.filterMap (fun dep =>
          let overlap := ((buildDependencyGraph jobs).ancestors dep).filter
            (fun a => directDeps.contains a)
          if overlap.isEmpty then none
          else some (DepIssue.redundant jobName dep overlap)))).countP
          isMissingIssue = 0 := by
      rw [List.countP_eq_zero]
      intro a ha
      obtain ⟨n, _, ha⟩ := List.mem_flatMap.mp ha
      obtain ⟨dep, _, ha⟩ := List.mem_filterMap.mp ha
      dsimp only at ha
      split at ha
      · cases ha
      · cases ha
        simp [isMissingIssue]
    rw [hc, hr]
    have hm : (jobs.flatMap (fun p =>
        (p.2.needs.filter (fun d => !(jobKeys jobs).contains d)).map
          (fun d => DepIssue.missing p.1 d))).countP isMissingIssue =
        (jobs.flatMap (fun p =>
          (p.2.needs.filter (fun d => !(jobKeys jobs).contains d)).map
            (fun d => DepIssue.missing p.1 d))).length := by
      rw [List.countP_eq_length]
      intro a ha
      obtain ⟨p, _, ha⟩ := List.mem_flatMap.mp ha
      obtain ⟨d, _, rfl⟩ := List.mem_map.mp ha
      rfl
    rw [hm, List.length_flatMap]
    simp [jobKeys, Function.comp_def, List.length_map]

/-- C8 witness: the map `a:[zz, b]`, `b:[zz]` has two dangling
occurrences of `zz`; the graph has exactly the two job nodes, both edge
endpoints are job names, and exactly two missing-dependency issues are
counted. -/
theorem graph_builder_missing_deps_witness :
    (buildDependencyGraph jobsM).nodes = jobsM.map Prod.fst ∧
    (∀ e ∈ (buildDependencyGraph jobsM).edges,
      e.1 ∈ jobsM.map Prod.fst ∧ e.2 ∈ jobsM.map Prod.fst) ∧
    (checkDependencyIssues (buildDependencyGraph jobsM) jobsM).countP isMissingIssue =
      (jobsM.map (fun p =>
        (p.2.needs.filter (fun d => !(jobsM.map Prod.fst).contains d)).length)).sum :=
  graph_builder_missing_deps jobsM (by decide)

/-! ## Generation-peeling lemmas (towards C6) -/

theorem nodup_mem_perm {l : List Name} {a : Name} (hnd : l.Nodup)
    (ha : a ∈ l) : l.Perm (a :: l.filter (fun x => x != a)) := by
  induction l with
  | nil => cases ha
  | cons b t ih =>
      rw [List.nodup_cons] at hnd
      rcases List.mem_cons.mp ha with rfl | ha'
      · have ht : t.filter (fun x => x != a) = t := by
          rw [List.filter_eq_self]
          intro x hx
          simp only [bne_iff_ne, ne_eq, decide_eq_true_eq]
          intro hxa
          exact hnd.1 (hxa ▸ hx)
        rw [List.filter_cons]
        simp only [bne_self_eq_false, Bool.false_eq_true, if_neg, ite_false]
        rw [ht]
      · have hba : (b != a) = true := by
          simp only [bne_iff_ne, ne_eq, decide_eq_true_eq]
          intro hba
          exact hnd.1 (hba ▸ ha')
        rw [List.filter_cons, if_pos hba]
        exact ((ih hnd.2 ha').cons b).trans (List.Perm.swap a b _)

theorem map_fst_filter_ne (l : List (Name × Nat)) (c : Name) :
    (l.filter (fun p => p.1 != c)).map Prod.fst =
      (l.map Prod.fst).filter (fun x => x != c) := by
  induction l with
  | nil => rfl
  | cons p t ih =>
      rw [List.filter_cons, List.map_cons, List.filter_cons]
      by_cases h : (p.1 != c) = true
      · rw [if_pos h, List.map_cons, ih, if_pos h]
      · rw [if_neg h, ih, if_neg h]

theorem map_fst_decr (l : List (Name × Nat)) (c : Name) (d : Nat) :
    ((l.map (fun p => if p.1 == c then (p.1, d) else p)).map Prod.fst) =
      l.map Prod.fst := by
  rw [List.map_map]
  refine List.map_congr_left ?_
  intro p _
  dsimp only [Function.comp]
  split <;> rfl

theorem processChild_spec (st : List (Name × Nat) × List Name) (c : Name)
    (hnd : (st.1.map Prod.fst).Nodup) :
    ((processChild st c).1.map Prod.fst ++ (processChild st c).2).Perm
        (st.1.map Prod.fst ++ st.2) ∧
      ((processChild st c).1.map Prod.fst).Nodup := by
  unfold processChild
  cases h : st.1.lookup c with
  | none => exact ⟨List.Perm.refl _, hnd⟩
  | some d =>
      dsimp only
      split
      · dsimp only
        have hc : c ∈ st.1.map Prod.fst := lookup_mem_keys h
        constructor
        · rw [map_fst_filter_ne]
          have h1 : (st.1.map Prod.fst).Perm
              (c :: (st.1.map Prod.fst).filter (fun x => x != c)) :=
            nodup_mem_perm hnd hc
          have p1 : ((st.1.map Prod.fst).filter (fun x => x != c) ++
              (st.2 ++ [c])).Perm
                ((st.1.map Prod.fst).filter (fun x => x != c) ++ (c :: st.2)) :=
            List.Perm.append_left _ List.perm_append_comm
          have p2 : ((st.1.map Prod.fst).filter (fun x => x != c) ++
              (c :: st.2)).Perm
                (c :: ((st.1.map Prod.fst).filter (fun x => x != c) ++ st.2)) :=
            List.perm_middle
          have p3 : ((st.1.map Prod.fst) ++ st.2).Perm
              (c :: ((st.1.map Prod.fst).filter (fun x => x != c) ++ st.2)) :=
            List.Perm.append_right st.2 h1
          exact (p1.trans p2).trans p3.symm
        · rw [map_fst_filter_ne]
          exact hnd.filter _
      · dsimp only
        rw [map_fst_decr]
        exact ⟨List.Perm.refl _, hnd⟩

theorem processGen_spec (g : Graph) (gen : List Name)
    (indeg : List (Name × Nat)) (hnd : (indeg.map Prod.fst).Nodup) :
    ((processGen g gen indeg).1.map Prod.fst ++ (processGen g gen indeg).2).Perm
        (indeg.map Prod.fst) ∧
      ((processGen g gen indeg).1.map Prod.fst).Nodup := by
  unfold processGen
  refine List.foldlRecOn
    (motive := fun st => ((st.1.map Prod.fst ++ st.2).Perm (indeg.map Prod.fst)) ∧
      (st.1.map Prod.fst).Nodup)
    gen _ (indeg, []) ⟨by rw [List.append_nil], hnd⟩ ?_
  intro st hst n _
  refine List.foldlRecOn
    (motive := fun st => ((st.1.map Prod.fst ++ st.2).Perm (indeg.map Prod.fst)) ∧
      (st.1.map Prod.fst).Nodup)
    (g.succs n) _ st hst ?_
  intro st' hst' c _
  obtain ⟨hp, hn⟩ := processChild_spec st' c hst'.2
  exact ⟨hp.trans hst'.1, hn⟩

theorem topoGenLoop_ok (g : Graph) :
    ∀ (fuel : Nat) (zero : List Name) (indeg : List (Name × Nat))
      (acc res : List (List Name)), (indeg.map Prod.fst).Nodup →
      topoGenLoop g fuel zero indeg acc = .ok res →
      res.flatten.Perm (acc.flatten ++ (zero ++ indeg.map Prod.fst)) ∧
        ∀ s ∈ res, s ∈ acc ∨ s ≠ [] := by
  intro fuel
  induction fuel with
  | zero =>
      intro zero indeg acc res hnd h
      rw [topoGenLoop] at h
      by_cases hz : zero.isEmpty
      · rw [if_pos hz] at h
        by_cases hi : indeg.isEmpty
        · rw [if_pos hi] at h
          cases h
          have hz' : zero = [] := List.isEmpty_iff.mp hz
          have hi' : indeg = [] := List.isEmpty_iff.mp hi
          subst hz'; subst hi'
          refine ⟨by simp, ?_⟩
          intro s hs
          exact .inl hs
        · rw [if_neg hi] at h
          cases h
      · rw [if_neg hz] at h
        cases h
  | succ k ih =>
      intro zero indeg acc res hnd h
      rw [topoGenLoop] at h
      by_cases hz : zero.isEmpty
      · rw [if_pos hz] at h
        by_cases hi : indeg.isEmpty
        · rw [if_pos hi] at h
          cases h
          have hz' : zero = [] := List.isEmpty_iff.mp hz
          have hi' : indeg = [] := List.isEmpty_iff.mp hi
          subst hz'; subst hi'
          refine ⟨by simp, ?_⟩
          intro s hs
          exact .inl hs
        · rw [if_neg hi] at h
          cases h
      · rw [if_neg hz] at h
        dsimp only at h
        obtain ⟨hgs, hgn⟩ := processGen_spec g zero indeg hnd
        obtain ⟨hperm, hmem⟩ := ih _ _ _ _ hgn h
        constructor
        · refine hperm.trans ?_
          have h1 : ((processGen g zero indeg).2 ++
              (processGen g zero indeg).1.map Prod.fst).Perm
                (indeg.map Prod.fst) := List.perm_append_comm.trans hgs
          refine (List.Perm.append_left ((acc ++ [zero]).flatten) h1).trans ?_
          have he : (acc ++ [zero]).flatten ++ indeg.map Prod.fst =
              acc.flatten ++ (zero ++ indeg.map Prod.fst) := by
            simp [List.flatten_append, List.append_assoc]
          exact he ▸ List.Perm.refl _
        · intro s hs
          rcases hmem s hs with hs1 | hs1
          · rcases List.mem_append.mp hs1 with h2 | h2
            · exact .inl h2
            · right
              rw [List.mem_singleton.mp h2]
              intro hnil
              rw [hnil] at hz
              exact hz rfl
          · exact .inr hs1

theorem map_fst_indeg_filterMap (l : List Name) (f : Name → Nat) :
    ((l.filterMap (fun n => if f n > 0 then some (n, f n) else none)).map
      Prod.fst) = l.filter (fun n => decide (f n > 0)) := by
  induction l with
  | nil => rfl
  | cons a t ih =>
      rw [List.filterMap_cons, List.filter_cons]
      by_cases h : f a > 0
      · rw [if_pos h, if_pos (by simpa using h), List.map_cons, ih]
      · rw [if_neg h, if_neg (by simpa using h), ih]

theorem topologicalGenerations_ok (g : Graph) (hnd : g.nodes.Nodup)
    (res : List (List Name)) (h : topologicalGenerations g = .ok res) :
    res.flatten.Perm g.nodes ∧ ∀ s ∈ res, s ≠ [] := by
  unfold topologicalGenerations at h
  have hkeys : ((g.nodes.filterMap (fun n =>
      if g.inDegree n > 0 then some (n, g.inDegree n) else none)).map Prod.fst)
      = g.nodes.filter (fun n => decide (g.inDegree n > 0)) :=
    map_fst_indeg_filterMap g.nodes g.inDegree
  have hnd' : ((g.nodes.filterMap (fun n =>
      if g.inDegree n > 0 then some (n, g.inDegree n) else none)).map
        Prod.fst).Nodup := by
    rw [hkeys]
    exact hnd.filter _
  obtain ⟨hperm, hmem⟩ := topoGenLoop_ok g _ _ _ _ _ hnd' h
  constructor
  · refine hperm.trans ?_
    rw [List.flatten_nil, List.nil_append, hkeys]
    have hcongr : g.nodes.filter (fun n => decide (g.inDegree n > 0)) =
        g.nodes.filter (fun n => !(g.inDegree n == 0)) := by
      refine List.filter_congr ?_
      intro n _
      cases hdeg : g.inDegree n with
      | zero => simp
      | succ k => simp
    rw [hcongr]
    exact List.filter_append_perm _ g.nodes
  · intro s hs
    rcases hmem s hs with h1 | h1
    · cases h1
    · exact h1

theorem topoGenLoop_error (g : Graph) :
    ∀ (fuel : Nat) (zero : List Name) (indeg : List (Name × Nat))
      (acc : List (List Name)) (e : NxExc),
      topoGenLoop g fuel zero indeg acc = .error e →
      e = .networkXUnfeasible := by
  intro fuel
  induction fuel with
  | zero =>
      intro zero indeg acc e h
      rw [topoGenLoop] at h
      by_cases hz : zero.isEmpty
      · rw [if_pos hz] at h
        by_cases hi : indeg.isEmpty
        · rw [if_pos hi] at h; cases h
        · rw [if_neg hi] at h; cases h; rfl
      · rw [if_neg hz] at h; cases h; rfl
  | succ k ih =>
      intro zero indeg acc e h
      rw [topoGenLoop] at h
      by_cases hz : zero.isEmpty
      · rw [if_pos hz] at h
        by_cases hi : indeg.isEmpty
        · rw [if_pos hi] at h; cases h
        · rw [if_neg hi] at h; cases h; rfl
      · rw [if_neg hz] at h
        exact ih _ _ _ _ h

theorem topologicalGenerations_error (g : Graph) (e : NxExc)
    (h : topologicalGenerations g = .error e) : e = .networkXUnfeasible :=
  topoGenLoop_error g _ _ _ _ e h

theorem calcExecutionStages_ok_cases (g : Graph) (stages : List (List Name))
    (h : calcExecutionStages g = .ok stages) :
    (g.nodes.length = 0 ∧ stages = []) ∨ topologicalGenerations g = .ok stages := by
  unfold calcExecutionStages at h
  by_cases hlen : (g.nodes.length == 0) = true
  · rw [if_pos hlen] at h
    cases h
    exact .inl ⟨by simpa using hlen, rfl⟩
  · rw [if_neg hlen] at h
    cases hg : topologicalGenerations g with
    | ok s =>
        rw [hg] at h
        simp only [] at h
        exact .inr h
    | error e =>
        rw [hg] at h
        have he := topologicalGenerations_error g e hg
        subst he
        cases h

/-! ## Weight and sum lemmas (towards C6) -/

theorem Job.weight_pos (j : Job) : 1 ≤ j.weight := by
  unfold Job.weight
  cases j.estimatedDuration with
  | none => show (1 : Nat) ≤ 60; omega
  | some d =>
      show (1 : Nat) ≤ if (d == 0) = true then 60 else d
      by_cases h : (d == 0) = true
      · rw [if_pos h]; omega
      · rw [if_neg h]
        have : d ≠ 0 := by simpa using h
        omega

theorem stageJobWeight_pos (jobs : JobMap) (n : Name) :
    1 ≤ stageJobWeight jobs n := by
  unfold stageJobWeight
  cases jobs.lookup n with
  | none => show (1 : Nat) ≤ 60; omega
  | some j => exact j.weight_pos

theorem foldl_max_le_add_sum :
    ∀ (l : List Nat) (a : Nat), l.foldl Nat.max a ≤ a + l.sum := by
  intro l
  induction l with
  | nil => intro a; simp
  | cons y t ih =>
      intro a
      rw [List.foldl_cons, List.sum_cons]
      have h1 := ih (Nat.max a y)
      have h2 : Nat.max a y ≤ a + y := Nat.max_le.mpr ⟨Nat.le_add_right a y, Nat.le_add_left y a⟩
      omega

theorem pyMaxNat_le_sum (l : List Nat) : pyMaxNat l ≤ l.sum := by
  cases l with
  | nil => exact Nat.le_refl 0
  | cons x xs =>
      rw [pyMaxNat, List.sum_cons]
      exact foldl_max_le_add_sum xs x

theorem pyMaxNat_eq_sum_iff (l : List Nat) (h1 : ∀ x ∈ l, 1 ≤ x)
    (hne : l ≠ []) : (pyMaxNat l = l.sum ↔ l.length = 1) := by
  constructor
  · intro heq
    match l with
    | [x] => rfl
    | x :: y :: t =>
        exfalso
        have hx : 1 ≤ x := h1 x (.head _)
        have hy : 1 ≤ y := h1 y (.tail _ (.head _))
        have hmax : Nat.max x y + 1 ≤ x + y := by
          have h3 : Nat.max x y = if x ≤ y then y else x := rfl
          rw [h3]
          split <;> omega
        have hle : pyMaxNat (x :: y :: t) ≤ Nat.max x y + t.sum := by
          rw [pyMaxNat, List.foldl_cons]
          exact foldl_max_le_add_sum t (Nat.max x y)
        rw [heq] at hle
        rw [List.sum_cons, List.sum_cons] at hle
        omega
  · intro hlen
    obtain ⟨x, rfl⟩ := List.length_eq_one.mp hlen
    rw [pyMaxNat, List.foldl_nil, List.sum_cons, List.sum_nil]
    omega

theorem sum_map_eq_iff_pointwise {α : Type} (l : List α) (f g : α → Nat)
    (hle : ∀ x ∈ l, f x ≤ g x) :
    ((l.map f).sum = (l.map g).sum ↔ ∀ x ∈ l, f x = g x) := by
  induction l with
  | nil => simp
  | cons a t ih =>
      rw [List.map_cons, List.map_cons, List.sum_cons, List.sum_cons]
      have ha : f a ≤ g a := hle a (.head _)
      have ht : ∀ x ∈ t, f x ≤ g x := fun x hx => hle x (.tail _ hx)
      have hts : (t.map f).sum ≤ (t.map g).sum := List.sum_le_sum ht
      constructor
      · intro heq
        have h1 : f a = g a := by omega
        have h2 : (t.map f).sum = (t.map g).sum := by omega
        intro x hx
        rcases List.mem_cons.mp hx with rfl | hx'
        · exact h1
        · exact (ih ht).mp h2 x hx'
      · intro hall
        have h1 : f a = g a := hall a (.head _)
        have h2 : (t.map f).sum = (t.map g).sum :=
          (ih ht).mpr (fun x hx => hall x (.tail _ hx))
        omega

theorem sum_map_flatten (W : Name → Nat) :
    ∀ (ls : List (List Name)),
      (ls.flatten.map W).sum = (ls.map (fun s => (s.map W).sum)).sum := by
  intro ls
  induction ls with
  | nil => rfl
  | cons s t ih =>
      rw [List.flatten_cons, List.map_cons, List.sum_cons, List.map_append,
        List.sum_append, ih]

theorem calcSerialTime_eq_keys_sum (jobs : JobMap)
    (hnd : (jobs.map Prod.fst).Nodup) :
    calcSerialTime jobs =
      ((jobs.map Prod.fst).map (stageJobWeight jobs)).sum := by
  unfold calcSerialTime
  rw [List.map_map]
  congr 1
  refine List.map_congr_left ?_
  intro p hp
  dsimp only [Function.comp]
  unfold stageJobWeight
  rw [mem_lookup_of_nodup hnd hp]

theorem buildDependencyGraph_nodes (jobs : JobMap)
    (hnd : (jobs.map Prod.fst).Nodup) :
    (buildDependencyGraph jobs).nodes = jobs.map Prod.fst := by
  have hk : (jobs.map (fun p => (p.1, p.2.needs))).map Prod.fst =
      jobs.map Prod.fst := by
    rw [List.map_map]
    rfl
  rw [buildDependencyGraph, buildFromNeeds_nodes _ (by rw [hk]; exact hnd), hk]

/-! ## C6 — parallel time versus serial time -/

/-- C6: for every (acyclic) job map whose stage computation succeeds,
`optimal_parallel_time` never exceeds `total_serial_time`, and the two
are equal exactly when every execution stage is a singleton.  Weights
are `estimated_duration or 60`, hence always positive, and the
generations partition the node set, which equals the job-name set. -/
theorem parallel_time_le_serial_time (jobs : JobMap)
    (stages : List (List Name)) (hnd : (jobs.map Prod.fst).Nodup)
    (hst : calcExecutionStages (buildDependencyGraph jobs) = .ok stages) :
    calcParallelTime jobs stages ≤ calcSerialTime jobs ∧
      (calcParallelTime jobs stages = calcSerialTime jobs ↔
        ∀ s ∈ stages, s.length = 1) := by
  rcases calcExecutionStages_ok_cases _ _ hst with ⟨hlen, rfl⟩ | hgen
  · have hjobs : jobs = [] := by
      have hn := buildDependencyGraph_nodes jobs hnd
      rw [List.length_eq_zero] at hlen
      rw [hlen] at hn
      exact List.map_eq_nil_iff.mp hn.symm
    subst hjobs
    exact ⟨Nat.le_refl _, by simp [calcParallelTime, calcSerialTime]⟩
  · have hnodes := buildDependencyGraph_nodes jobs hnd
    have hnodup : (buildDependencyGraph jobs).nodes.Nodup := by
      rw [hnodes]; exact hnd
    obtain ⟨hperm, hne⟩ := topologicalGenerations_ok _ hnodup _ hgen
    rw [hnodes] at hperm
    have hserial : calcSerialTime jobs =
        (stages.map (fun s => (s.map (stageJobWeight jobs)).sum)).sum := by
      rw [calcSerialTime_eq_keys_sum jobs hnd, ← sum_map_flatten]
      exact ((hperm.map (stageJobWeight jobs)).sum_eq).symm
    have hpar : calcParallelTime jobs stages =
        (stages.map (fun s => pyMaxNat (s.map (stageJobWeight jobs)))).sum := rfl
    have hptle : ∀ s ∈ stages,
        pyMaxNat (s.map (stageJobWeight jobs)) ≤ (s.map (stageJobWeight jobs)).sum :=
      fun s _ => pyMaxNat_le_sum _
    constructor
    · rw [hpar, hserial]
      exact List.sum_le_sum hptle
    · rw [hpar, hserial, sum_map_eq_iff_pointwise stages _ _ hptle]
      constructor
      · intro hall s hs
        have h1 := (pyMaxNat_eq_sum_iff (s.map (stageJobWeight jobs))
            (by intro x hx
                obtain ⟨n, _, rfl⟩ := List.mem_map.mp hx
                exact stageJobWeight_pos jobs n)
            (by intro hnil
                exact hne s hs (List.map_eq_nil_iff.mp hnil))).mp (hall s hs)
        rw [List.length_map] at h1
        exact h1
      · intro hall s hs
        refine (pyMaxNat_eq_sum_iff (s.map (stageJobWeight jobs))
            (by intro x hx
                obtain ⟨n, _, rfl⟩ := List.mem_map.mp hx
                exact stageJobWeight_pos jobs n)
            (by intro hnil
                exact hne s hs (List.map_eq_nil_iff.mp hnil))).mpr ?_
        rw [List.length_map]
        exact hall s hs

/-- C6 witness: scenario A (`build → test → deploy`, 60 s each) has the
singleton stages `[[build], [test], [deploy]]`, so parallel time equals
serial time, consistent with the equivalence. -/
theorem parallel_time_le_serial_time_witness :
    calcParallelTime jobsA [["build"], ["test"], ["deploy"]] ≤ calcSerialTime jobsA ∧
      (calcParallelTime jobsA [["build"], ["test"], ["deploy"]] = calcSerialTime jobsA ↔
        ∀ s ∈ [["build"], ["test"], ["deploy"]], s.length = 1) :=
  parallel_time_le_serial_time jobsA [["build"], ["test"], ["deploy"]]
    (by decide) (by decide)

/-! ## C5 — critical-path tie-breaking -/

/-- The head's value never exceeds the value of Python `max`'s result. -/
theorem pyMaxBySnd_head_le :
    ∀ (xs : List (Name × Nat)) (x : Name × Nat),
      x.2 ≤ (pyMaxBySnd (x :: xs)).2 := by
  intro xs
  induction xs with
  | nil => intro x; exact Nat.le_refl _
  | cons y t ih =>
      intro x
      have hstep : pyMaxBySnd (x :: y :: t) =
          pyMaxBySnd ((if y.2 > x.2 then y else x) :: t) := rfl
      rw [hstep]
      by_cases hxy : y.2 > x.2
      · rw [if_pos hxy]
        exact Nat.le_trans (Nat.le_of_lt hxy) (ih y)
      · rw [if_neg hxy]
        exact ih x

/-- Python's `max(items, key=...)` keeps the first maximal element: the
result splits the list into a strictly-smaller prefix and a
no-larger suffix around the returned element. -/
theorem pyMaxBySnd_spec :
    ∀ (xs : List (Name × Nat)) (x : Name × Nat),
      ∃ l1 l2, x :: xs = l1 ++ (pyMaxBySnd (x :: xs)) :: l2 ∧
        (∀ q ∈ l1, q.2 < (pyMaxBySnd (x :: xs)).2) ∧
        (∀ q ∈ l2, q.2 ≤ (pyMaxBySnd (x :: xs)).2) := by
  intro xs
  induction xs with
  | nil =>
      intro x
      refine ⟨[], [], rfl, ?_, ?_⟩
      · intro q hq; cases hq
      · intro q hq; cases hq
  | cons y t ih =>
      intro x
      have hstep : pyMaxBySnd (x :: y :: t) =
          pyMaxBySnd ((if y.2 > x.2 then y else x) :: t) := rfl
      by_cases hxy : y.2 > x.2
      · rw [hstep, if_pos hxy]
        obtain ⟨l1, l2, hdecomp, hlt, hle⟩ := ih y
        refine ⟨x :: l1, l2, by rw [List.cons_append, ← hdecomp], ?_, hle⟩
        intro q hq
        have hy : y.2 ≤ (pyMaxBySnd (y :: t)).2 := pyMaxBySnd_head_le t y
        rcases List.mem_cons.mp hq with rfl | hq'
        · omega
        · exact hlt q hq'
      · rw [hstep, if_neg hxy]
        obtain ⟨l1, l2, hdecomp, hlt, hle⟩ := ih x
        cases l1 with
        | nil =>
            rw [List.nil_append, List.cons.injEq] at hdecomp
            obtain ⟨hx, ht⟩ := hdecomp
            refine ⟨[], y :: t, ?_, ?_, ?_⟩
            · rw [List.nil_append, ← hx]
            · intro q hq; cases hq
            · intro q hq
              rcases List.mem_cons.mp hq with rfl | hq'
              · rw [← hx]; omega
              · exact hle q (ht ▸ hq')
        | cons z l1' =>
            rw [List.cons_append, List.cons.injEq] at hdecomp
            obtain ⟨hz, ht⟩ := hdecomp
            refine ⟨x :: y :: l1', l2, ?_, ?_, hle⟩
            · rw [List.cons_append, List.cons_append, ← ht]
            · intro q hq
              have hxlt : x.2 < (pyMaxBySnd (x :: t)).2 := by
                refine hlt z ?_ |>.trans_le (Nat.le_refl _) |> (hz ▸ ·)
                exact List.mem_cons_self z l1'
              rcases List.mem_cons.mp hq with rfl | hq'
              · exact hxlt
              · rcases List.mem_cons.mp hq' with rfl | hq''
                · omega
                · exact hlt q (List.mem_cons_of_mem _ hq'')

/-- The DP of `_find_critical_path` keeps the distance dict keyed by the
node list in insertion order. -/
theorem setVal_keys {β : Type} (m : List (Name × β)) (k : Name) (v : β) :
    (setVal m k v).map Prod.fst = m.map Prod.fst := by
  unfold setVal
  rw [List.map_map]
  refine List.map_congr_left ?_
  intro p _
  dsimp only [Function.comp]
  split <;> rfl

theorem criticalDP_keys (g : Graph) (jobs : JobMap) (order : List Name) :
    (criticalDP g jobs order).1.map Prod.fst = g.nodes := by
  unfold criticalDP
  refine List.foldlRecOn
    (motive := fun st => st.1.map Prod.fst = g.nodes) order _
    (g.nodes.map (fun n => (n, 0)), g.nodes.map (fun n => (n, (none : Option Name))))
    ?_ ?_
  · dsimp only
    rw [List.map_map]
    refine (List.map_congr_left ?_).trans (List.map_id _)
    intro n _
    rfl
  · intro st hst n _
    refine List.foldlRecOn
      (motive := fun st => st.1.map Prod.fst = g.nodes) (g.succs n) _ st hst ?_
    intro st' hst' s _
    dsimp only
    split
    · rw [setVal_keys]
      exact hst'
    · exact hst'

/-- C5 amended: when distances tie for the maximum, `_find_critical_path`
returns the path ending at the tied node that occurs *first in the
graph's node-insertion order* (the iteration order of the `distances`
dict built over `G.nodes`), not the first in topological order: the
returned path's last element is the first entry of the distance list
that no later entry strictly exceeds. -/
theorem critical_path_ends_at_first_max (g : Graph) (jobs : JobMap)
    (order : List Name) (hord : topologicalSort g = .ok order)
    (hne : g.nodes ≠ []) :
    ∃ p l1 l2,
      findCriticalPath g jobs = .ok p ∧
      (criticalDP g jobs order).1 =
        l1 ++ (pyMaxBySnd (criticalDP g jobs order).1) :: l2 ∧
      (∀ q ∈ l1, q.2 < (pyMaxBySnd (criticalDP g jobs order).1).2) ∧
      (∀ q ∈ l2, q.2 ≤ (pyMaxBySnd (criticalDP g jobs order).1).2) ∧
      p.getLast? = some (pyMaxBySnd (criticalDP g jobs order).1).1 := by
  have hlen : (g.nodes.length == 0) = false := by
    simpa using fun h => hne (List.length_eq_zero.mp h)
  have hres : findCriticalPath g jobs =
      .ok ((buildPathRev (criticalDP g jobs order).2 (g.nodes.length + 1)
        (pyMaxBySnd (criticalDP g jobs order).1).1).reverse) := by
    unfold findCriticalPath
    rw [hlen]
    simp only [Bool.false_eq_true, if_false]
    rw [hord]
  have hdist : (criticalDP g jobs order).1 ≠ [] := by
    intro hnil
    have := criticalDP_keys g jobs order
    rw [hnil] at this
    exact hne this.symm
  obtain ⟨x, xs, hx⟩ := List.exists_cons_of_ne_nil hdist
  obtain ⟨l1, l2, hdecomp, hlt, hle⟩ := pyMaxBySnd_spec xs x
  refine ⟨_, l1, l2, hres, by rw [hx, ← hdecomp], by rw [hx]; exact hlt,
    by rw [hx]; exact hle, ?_⟩
  rw [List.getLast?_reverse]
  rw [buildPathRev]
  rfl

/-- C5 counterexample: in the fixture graph the sinks `u` and `v` tie at
distance 120; `v` precedes `u` in the topological order `a,c,b,v,u`, so
the claim (ties broken by topological order) predicts a path ending at
`v` — but the code returns `[a, b, u]`, ending at `u`, because `max`
iterates the distance dict in node-insertion order (`u` first). -/
theorem critical_path_tiebreak_not_topological :
    topologicalSort g5 = .ok ["a", "c", "b", "v", "u"] ∧
    getNat (criticalDP g5 jobs5 ["a", "c", "b", "v", "u"]).1 "v" = 120 ∧
    getNat (criticalDP g5 jobs5 ["a", "c", "b", "v", "u"]).1 "u" = 120 ∧
    (∀ n ∈ g5.nodes,
      getNat (criticalDP g5 jobs5 ["a", "c", "b", "v", "u"]).1 n ≤ 120) ∧
    findCriticalPath g5 jobs5 = .ok ["a", "b", "u"] := by
  refine ⟨?_, ?_, ?_, ?_, ?_⟩ <;> decide

/-- C5 witness for the amended tie-break statement, instantiated on the
fixture graph. -/
theorem critical_path_ends_at_first_max_witness :
    ∃ p l1 l2,
      findCriticalPath g5 jobs5 = .ok p ∧
      (criticalDP g5 jobs5 ["a", "c", "b", "v", "u"]).1 =
        l1 ++ (pyMaxBySnd (criticalDP g5 jobs5 ["a", "c", "b", "v", "u"]).1) :: l2 ∧
      (∀ q ∈ l1,
        q.2 < (pyMaxBySnd (criticalDP g5 jobs5 ["a", "c", "b", "v", "u"]).1).2) ∧
      (∀ q ∈ l2,
        q.2 ≤ (pyMaxBySnd (criticalDP g5 jobs5 ["a", "c", "b", "v", "u"]).1).2) ∧
      p.getLast? =
        some (pyMaxBySnd (criticalDP g5 jobs5 ["a", "c", "b", "v", "u"]).1).1 :=
  critical_path_ends_at_first_max g5 jobs5 ["a", "c", "b", "v", "u"]
    (by decide) (by decide)

/-! ## Optimizer state lemmas (towards C7) -/

theorem filterMap_str_map (l : List Name) :
    (l.map NeedsElem.str).filterMap needsElemName = l := by
  induction l with
  | nil => rfl
  | cons a t ih =>
      rw [List.map_cons, List.filterMap_cons]
      simpa [needsElemName] using ih

theorem getNeedsList_encode (l : List Name) :
    getNeedsList ((encodeNeeds l).getD (.list [])) = l := by
  match l with
  | [] => rfl
  | [n] => rfl
  | n1 :: n2 :: t =>
      show getNeedsList (.list ((n1 :: n2 :: t).map NeedsElem.str)) = n1 :: n2 :: t
      rw [getNeedsList]
      exact filterMap_str_map (n1 :: n2 :: t)

theorem needNames_encode (l : List Name) :
    PJob.needNames ⟨encodeNeeds l⟩ = l := by
  unfold PJob.needNames PJob.needsValue
  exact getNeedsList_encode l

theorem filter_eq_self_of_length {α : Type} {l : List α} {p : α → Bool}
    (h : (l.filter p).length = l.length) : l.filter p = l :=
  (List.filter_sublist l).eq_of_length h

theorem lookup_isSome_of_mem_keys {β : Type} {l : List (Name × β)} {k : Name}
    (h : k ∈ l.map Prod.fst) : ∃ v, l.lookup k = some v := by
  induction l with
  | nil => cases h
  | cons p t ih =>
      rw [List.map_cons, List.mem_cons] at h
      by_cases hk : k = p.1
      · exact ⟨p.2, by simp [List.lookup, hk]⟩
      · rcases h with h1 | h1
        · exact absurd h1 hk
        · obtain ⟨v, hv⟩ := ih h1
          refine ⟨v, ?_⟩
          have hb : (k == p.1) = false := by simpa using hk
          simp [List.lookup, hb, hv]

theorem updateJob_keys (m : PJobMap) (k : Name) (f : PJob → PJob) :
    (updateJob m k f).map Prod.fst = m.map Prod.fst := by
  unfold updateJob
  rw [List.map_map]
  refine List.map_congr_left ?_
  intro p _
  dsimp only [Function.comp]
  split <;> rfl

theorem lookup_updateJob_self (m : PJobMap) (k : Name) (f : PJob → PJob) :
    (updateJob m k f).lookup k = (m.lookup k).map f := by
  unfold updateJob
  induction m with
  | nil => rfl
  | cons p t ih =>
      obtain ⟨p1, p2⟩ := p
      rw [List.map_cons]
      by_cases hk : p1 = k
      · have hif : (if (p1, p2).1 == k then ((p1, p2).1, f (p1, p2).2)
            else (p1, p2)) = (p1, f p2) := by
          rw [if_pos (by simpa using hk)]
        rw [hif, List.lookup, List.lookup]
        have hb : (k == p1) = true := by simpa using hk.symm
        rw [hb]
        rfl
      · have hif : (if (p1, p2).1 == k then ((p1, p2).1, f (p1, p2).2)
            else (p1, p2)) = (p1, p2) := by
          rw [if_neg]
          simpa using hk
        rw [hif, List.lookup, List.lookup]
        have hb : (k == p1) = false := by
          simpa using fun h => hk h.symm
        rw [hb]
        exact ih

theorem lookup_updateJob_other (m : PJobMap) (k k' : Name) (f : PJob → PJob)
    (h : k' ≠ k) : (updateJob m k f).lookup k' = m.lookup k' := by
  unfold updateJob
  induction m with
  | nil => rfl
  | cons p t ih =>
      obtain ⟨p1, p2⟩ := p
      rw [List.map_cons]
      by_cases hk : p1 = k
      · have hif : (if (p1, p2).1 == k then ((p1, p2).1, f (p1, p2).2)
            else (p1, p2)) = (p1, f p2) := by
          rw [if_pos (by simpa using hk)]
        rw [hif, List.lookup, List.lookup]
        have hb : (k' == p1) = false := by
          simpa using fun he => h (he.trans hk)
        rw [hb]
        exact ih
      · have hif : (if (p1, p2).1 == k then ((p1, p2).1, f (p1, p2).2)
            else (p1, p2)) = (p1, p2) := by
          rw [if_neg]
          simpa using hk
        rw [hif, List.lookup, List.lookup]
        cases hb : (k' == p1) with
        | true => rfl
        | false => exact ih

theorem JobsShrink.refl (m : PJobMap) : JobsShrink m m :=
  ⟨rfl, fun _ _ h => h⟩

theorem JobsShrink.trans {m0 m1 m2 : PJobMap} (h1 : JobsShrink m0 m1)
    (h2 : JobsShrink m1 m2) : JobsShrink m0 m2 :=
  ⟨h2.1.trans h1.1, fun n d hd => h1.2 n d (h2.2 n d hd)⟩

theorem needNamesAt_eq_of_lookup {m : PJobMap} {n : Name} {j : PJob}
    (h : m.lookup n = some j) : needNamesAt m n = j.needNames := by
  unfold needNamesAt
  rw [h]

theorem mem_needNamesAt {m : PJobMap} {n d : Name} :
    d ∈ needNamesAt m n ↔ ∃ j, m.lookup n = some j ∧ d ∈ j.needNames := by
  unfold needNamesAt
  cases h : m.lookup n with
  | none => simp
  | some j => simp

theorem two_mem_one_lt_length {l : List Name} {a b : Name} (ha : a ∈ l)
    (hb : b ∈ l) (hne : a ≠ b) : 1 < l.length := by
  match l with
  | [] => cases ha
  | [x] =>
      rw [List.mem_singleton] at ha hb
      exact absurd (ha.trans hb.symm) hne
  | x :: y :: t =>
      show 1 < t.length + 1 + 1
      omega

theorem buildDependencyGraphP_nodes (m : PJobMap)
    (hnd : (m.map Prod.fst).Nodup) :
    (buildDependencyGraphP m).nodes = m.map Prod.fst := by
  have hk : (m.map (fun p => (p.1, p.2.needNames))).map Prod.fst =
      m.map Prod.fst := by
    rw [List.map_map]
    rfl
  rw [buildDependencyGraphP, buildFromNeeds_nodes _ (by rw [hk]; exact hnd), hk]

theorem mem_edges_buildP (m : PJobMap) (hnd : (m.map Prod.fst).Nodup)
    (e : Name × Name) :
    e ∈ (buildDependencyGraphP m).edges ↔
      e.1 ∈ needNamesAt m e.2 ∧ e.1 ∈ m.map Prod.fst ∧ e.2 ∈ m.map Prod.fst := by
  have hk : (m.map (fun p => (p.1, p.2.needNames))).map Prod.fst =
      m.map Prod.fst := by
    rw [List.map_map]
    rfl
  rw [buildDependencyGraphP, mem_edges_buildFromNeeds _ (by rw [hk]; exact hnd) e]
  constructor
  · rintro ⟨p, hp, h2, h1, hkk⟩
    obtain ⟨q, hq, rfl⟩ := List.mem_map.mp hp
    dsimp only at h2 h1
    refine ⟨?_, by rw [hk] at hkk; exact hkk, by rw [h2]; exact List.mem_map.mpr ⟨q, hq, rfl⟩⟩
    rw [h2, needNamesAt_eq_of_lookup (mem_lookup_of_nodup hnd hq)]
    exact h1
  · rintro ⟨h1, h2, _⟩
    obtain ⟨j, hj, hd⟩ := mem_needNamesAt.mp h1
    exact ⟨(e.2, j.needNames),
      List.mem_map.mpr ⟨(e.2, j), lookup_mem hj, rfl⟩, rfl, hd, by rw [hk]; exact h2⟩

theorem redStep_ok (jm : PJobMap) (ch : List Change) (e : Name × List Name) :
    redStep (pure (⟨some jm⟩, ch)) e =
      if (jm.map Prod.fst).contains e.1 then
        match jm.lookup e.1 with
        | none => .ok (⟨some jm⟩, ch)
        | some job =>
            if (job.needNames.filter (fun d => !e.2.contains d)).length != job.needNames.length then
              .ok (⟨some (updateJob jm e.1 (fun j => { j with needs := encodeNeeds (job.needNames.filter (fun d => !e.2.contains d)) }))⟩, ch ++ [⟨"remove_redundant_dependency", e.1, e.2⟩])
            else .ok (⟨some jm⟩, ch)
      else .ok (⟨some jm⟩, ch) := rfl

theorem parJobStep_ok (jobSet : List Name) (jm : PJobMap) (ch : List Change)
    (job : Name) :
    parJobStep jobSet (pure (⟨some jm⟩, ch)) job =
      if (jm.map Prod.fst).contains job then
        match jm.lookup job with
        | none => .ok (⟨some jm⟩, ch)
        | some jd =>
            if (jd.needNames.filter (fun dep => !jobSet.contains dep || dep == job)).length != jd.needNames.length then
              .ok (⟨some (updateJob jm job (fun j => { j with needs := encodeNeeds (jd.needNames.filter (fun dep => !jobSet.contains dep || dep == job)) }))⟩, ch ++ [⟨"enable_parallelization", job, []⟩])
            else .ok (⟨some jm⟩, ch)
      else .ok (⟨some jm⟩, ch) := rfl

theorem parSetStep_ok (g : Graph) (jm : PJobMap) (ch : List Change)
    (jobSet : List Name) :
    parSetStep g (pure (⟨some jm⟩, ch)) jobSet =
      if jobSet.length > 1 then
        if anyPair jobSet (fun a b => g.hasEdge a b || g.hasEdge b a) then
          jobSet.foldl (parJobStep jobSet) (pure (⟨some jm⟩, ch))
        else .ok (⟨some jm⟩, ch)
      else .ok (⟨some jm⟩, ch) := rfl

theorem foldl_redStep_error (l : List (Name × List Name)) (e : PyExc) :
    l.foldl redStep (.error e) = .error e := by
  induction l with
  | nil => rfl
  | cons x t ih => rw [List.foldl_cons]; exact ih

theorem foldl_parJobStep_error (jobSet : List Name) (l : List Name)
    (e : PyExc) : l.foldl (parJobStep jobSet) (.error e) = .error e := by
  induction l with
  | nil => rfl
  | cons x t ih => rw [List.foldl_cons]; exact ih

theorem foldl_parSetStep_error (g : Graph) (l : List (List Name)) (e : PyExc) :
    l.foldl (parSetStep g) (.error e) = .error e := by
  induction l with
  | nil => rfl
  | cons x t ih => rw [List.foldl_cons]; exact ih

/-- The single-entry shrink fact for the optimizer update steps: the
updated map keeps the keys, only shrinks needs. -/
theorem shrink_updateJob_filter (jm : PJobMap) (k : Name) (job : PJob)
    (hjob : jm.lookup k = some job) (p : Name → Bool) :
    JobsShrink jm (updateJob jm k (fun j =>
      { j with needs := encodeNeeds (job.needNames.filter p) })) := by
  constructor
  · exact updateJob_keys jm k _
  · intro n d hd
    by_cases hn : n = k
    · subst hn
      rw [mem_needNamesAt] at hd
      obtain ⟨j', hj', hd'⟩ := hd
      rw [lookup_updateJob_self, hjob] at hj'
      have hj2 : j' = PJob.mk (encodeNeeds (job.needNames.filter p)) := by
        simpa using hj'.symm
      subst hj2
      rw [needNames_encode] at hd'
      rw [needNamesAt_eq_of_lookup hjob]
      exact List.mem_of_mem_filter hd'
    · rw [mem_needNamesAt] at hd ⊢
      obtain ⟨j', hj', hd'⟩ := hd
      rw [lookup_updateJob_other _ _ _ _ hn] at hj'
      exact ⟨j', hj', hd'⟩

/-- After the update, job `k`'s dependency names avoid everything `p`
rejects. -/
theorem needNamesAt_updateJob_filter (jm : PJobMap) (k : Name) (job : PJob)
    (hjob : jm.lookup k = some job) (p : Name → Bool) :
    needNamesAt (updateJob jm k (fun j =>
        { j with needs := encodeNeeds (job.needNames.filter p) })) k =
      job.needNames.filter p := by
  have h1 : (updateJob jm k (fun j =>
      { j with needs := encodeNeeds (job.needNames.filter p) })).lookup k =
      some (PJob.mk (encodeNeeds (job.needNames.filter p))) := by
    rw [lookup_updateJob_self, hjob]
    rfl
  rw [needNamesAt_eq_of_lookup h1, needNames_encode]

theorem applyRedRem_spec :
    ∀ (rl : List (Name × List Name)) (jm : PJobMap) (ch : List Change)
      (ow' : Workflow) (ch' : List Change),
      applyRedundantRemovals ⟨some jm⟩ rl ch = .ok (ow', ch') →
      ∃ jm', ow' = ⟨some jm'⟩ ∧ JobsShrink jm jm' ∧
        (∀ entry ∈ rl, entry.1 ∈ jm.map Prod.fst →
          ∀ d ∈ needNamesAt jm' entry.1, d ∉ entry.2) := by
  intro rl
  induction rl with
  | nil =>
      intro jm ch ow' ch' h
      cases h
      exact ⟨jm, rfl, JobsShrink.refl jm, by intro entry he; cases he⟩
  | cons e rest ih =>
      intro jm ch ow' ch' h
      rw [applyRedundantRemovals, List.foldl_cons, redStep_ok] at h
      split at h
      · -- e.1 is a key of jm
        next hc =>
        split at h
        · -- lookup none: impossible since contains is true
          next hjob =>
          obtain ⟨v, hv⟩ := lookup_isSome_of_mem_keys ((name_contains_iff _ _).mp hc)
          rw [hv] at hjob
          cases hjob
        · next job hjob =>
          split at h
          · -- needs were filtered and re-encoded
            next hlen =>
            obtain ⟨jm', how', hshrink, hdisj⟩ := ih _ _ _ _ h
            have hstep := shrink_updateJob_filter jm e.1 job hjob
              (fun d => !e.2.contains d)
            refine ⟨jm', how', hstep.trans hshrink, ?_⟩
            intro entry hentry hkey d hd
            rcases List.mem_cons.mp hentry with rfl | hentry'
            · have hd1 := hshrink.2 entry.1 d hd
              rw [needNamesAt_updateJob_filter jm entry.1 job hjob] at hd1
              have := (List.mem_filter.mp hd1).2
              simpa using this
            · refine hdisj entry hentry' ?_ d hd
              rw [updateJob_keys]
              exact hkey
          · -- nothing removed for this entry
            next hlen =>
            obtain ⟨jm', how', hshrink, hdisj⟩ := ih _ _ _ _ h
            refine ⟨jm', how', hshrink, ?_⟩
            intro entry hentry hkey d hd
            rcases List.mem_cons.mp hentry with rfl | hentry'
            · have hfe : job.needNames.filter (fun d => !entry.2.contains d) =
                  job.needNames := by
                refine filter_eq_self_of_length ?_
                simpa using hlen
              have hd1 := hshrink.2 entry.1 d hd
              rw [needNamesAt_eq_of_lookup hjob] at hd1
              have hall := List.filter_eq_self.mp hfe d hd1
              simpa using hall
            · exact hdisj entry hentry' hkey d hd
      · -- e.1 is not a key of jm
        next hc =>
        obtain ⟨jm', how', hshrink, hdisj⟩ := ih _ _ _ _ h
        refine ⟨jm', how', hshrink, ?_⟩
        intro entry hentry hkey d hd
        rcases List.mem_cons.mp hentry with rfl | hentry'
        · exact absurd ((name_contains_iff _ _).mpr hkey) (by simpa using hc)
        · exact hdisj entry hentry' hkey d hd

theorem parJobStep_fold_shape :
    ∀ (js jobSet : List Name) (jm : PJobMap) (ch : List Change),
      (∃ e, js.foldl (parJobStep jobSet) (pure (⟨some jm⟩, ch)) = .error e) ∨
      (∃ jm1 ch1, js.foldl (parJobStep jobSet) (pure (⟨some jm⟩, ch)) =
          .ok (⟨some jm1⟩, ch1) ∧ JobsShrink jm jm1) := by
  intro js
  induction js with
  | nil =>
      intro jobSet jm ch
      exact .inr ⟨jm, ch, rfl, JobsShrink.refl jm⟩
  | cons j rest ih =>
      intro jobSet jm ch
      rw [List.foldl_cons, parJobStep_ok]
      split
      · next hc =>
        split
        · next hjd =>
          exact ih jobSet jm ch
        · next jd hjd =>
          split
          · next hlen =>
            rcases ih jobSet (updateJob jm j (fun x =>
                { x with needs := encodeNeeds (jd.needNames.filter
                  (fun dep => !jobSet.contains dep || dep == j)) })) _ with
              ⟨e, he⟩ | ⟨jm1, ch1, hok, hshrink⟩
            · exact .inl ⟨e, he⟩
            · exact .inr ⟨jm1, ch1, hok,
                (shrink_updateJob_filter jm j jd hjd _).trans hshrink⟩
          · next hlen =>
            exact ih jobSet jm ch
      · next hc =>
        exact ih jobSet jm ch

theorem applyPar_spec :
    ∀ (pz : List (List Name)) (g : Graph) (jm : PJobMap) (ch : List Change)
      (ow' : Workflow) (ch' : List Change),
      applyParallelization g ⟨some jm⟩ pz ch = .ok (ow', ch') →
      ∃ jm', ow' = ⟨some jm'⟩ ∧ JobsShrink jm jm' := by
  intro pz
  induction pz with
  | nil =>
      intro g jm ch ow' ch' h
      cases h
      exact ⟨jm, rfl, JobsShrink.refl jm⟩
  | cons jobSet rest ih =>
      intro g jm ch ow' ch' h
      rw [applyParallelization, List.foldl_cons, parSetStep_ok] at h
      split at h
      · next h1 =>
        split at h
        · next h2 =>
          rcases parJobStep_fold_shape jobSet jobSet jm ch with
            ⟨e, he⟩ | ⟨jm1, ch1, hok, hshrink⟩
          · rw [he, foldl_parSetStep_error] at h
            cases h
          · rw [hok] at h
            obtain ⟨jm', how', hshrink'⟩ := ih g _ _ _ _ h
            exact ⟨jm', how', hshrink.trans hshrink'⟩
        · next h2 =>
          exact ih g jm ch ow' ch' h
      · next h1 =>
        exact ih g jm ch ow' ch' h

theorem findRedundant_shape (g : Graph) (entry : Name × List Name)
    (h : entry ∈ findRedundantDependencies g) :
    entry.2 ≠ [] ∧
      ∀ d2 ∈ entry.2, ∃ d1, d1 ∈ (g.preds entry.1).dedup ∧
        d2 ∈ (g.preds entry.1).dedup ∧ d2 ≠ d1 ∧ d2 ∈ g.ancestors d1 := by
  obtain ⟨node, _, heq⟩ := List.mem_filterMap.mp h
  dsimp only at heq
  split at heq
  · split at heq
    · cases heq
    · next hne =>
      cases heq
      dsimp only
      constructor
      · intro hnil
        rw [hnil] at hne
        exact hne rfl
      · intro d2 hd2
        rw [List.mem_dedup] at hd2
        obtain ⟨d1, hd1, hd2'⟩ := List.mem_flatMap.mp hd2
        rw [List.mem_filter] at hd2'
        obtain ⟨hmem, hb⟩ := hd2'
        rw [Bool.and_eq_true] at hb
        exact ⟨d1, hd1, hmem, by simpa using hb.1,
          (name_contains_iff _ _).mp hb.2⟩
  · cases heq

theorem findRedundant_complete (g : Graph) {j d1 d2 : Name} (hj : j ∈ g.nodes)
    (h1 : d1 ∈ (g.preds j).dedup) (h2 : d2 ∈ (g.preds j).dedup)
    (hne : d2 ≠ d1) (hanc : d2 ∈ g.ancestors d1) :
    ∃ reds, (j, reds) ∈ findRedundantDependencies g ∧ d2 ∈ reds := by
  have hd2r : d2 ∈ (((g.preds j).dedup).flatMap (fun dep =>
      ((g.preds j).dedup).filter (fun other =>
        other != dep && (g.ancestors dep).contains other))).dedup := by
    rw [List.mem_dedup]
    refine List.mem_flatMap.mpr ⟨d1, h1, ?_⟩
    refine List.mem_filter.mpr ⟨h2, ?_⟩
    rw [Bool.and_eq_true]
    exact ⟨by simpa using hne, (name_contains_iff _ _).mpr hanc⟩
  refine ⟨_, List.mem_filterMap.mpr ⟨j, hj, ?_⟩, hd2r⟩
  dsimp only
  rw [if_pos (two_mem_one_lt_length h2 h1 hne)]
  rw [if_neg ?_]
  intro hempty
  rw [List.isEmpty_iff] at hempty
  rw [hempty] at hd2r
  cases hd2r

theorem edges_subset_of_shrink {m m' : PJobMap}
    (hnd : (m.map Prod.fst).Nodup) (hs : JobsShrink m m') :
    ∀ e ∈ (buildDependencyGraphP m').edges, e ∈ (buildDependencyGraphP m).edges := by
  intro e he
  have hnd' : (m'.map Prod.fst).Nodup := by rw [hs.1]; exact hnd
  rw [mem_edges_buildP m' hnd'] at he
  rw [mem_edges_buildP m hnd]
  refine ⟨hs.2 e.2 e.1 he.1, ?_, ?_⟩
  · rw [← hs.1]
    exact he.2.1
  · rw [← hs.1]
    exact he.2.2

/-! ## C7 — redundancy removal is idempotent -/

/-- C7: one run of the optimizer on a job map (redundancy removal plus
the parallelization-enabling rewrite) leaves a dependency map on which
`_find_redundant_dependencies` finds nothing: the second run of
`optimize_parallelization` removes zero further dependencies.  The
argument: the run only shrinks needs lists, and every surviving direct
dependency was not redundant in the original graph; since edge sets only
shrink, ancestor relations only shrink, so a dependency redundant in the
new graph would have been redundant (and hence removed) in the old one. -/
theorem redundancy_removal_idempotent (m : PJobMap)
    (hnd : (m.map Prod.fst).Nodup) (m' : PJobMap) (chs : List Change)
    (h : optimizeJobsMap m = .ok (m', chs)) :
    findRedundantDependencies (buildDependencyGraphP m') = [] := by
  rw [optimizeJobsMap] at h
  cases hp : (findParallelizableJobs m (buildDependencyGraphP m)).mapError
      PyExc.nx with
  | error e =>
      rw [hp] at h
      have h2 : (Except.error e : Except PyExc (PJobMap × List Change)) =
          .ok (m', chs) := h
      cases h2
  | ok pz =>
      rw [hp] at h
      have h1 : (do
          let (ow1, ch1) ← applyRedundantRemovals ⟨some m⟩
            (findRedundantDependencies (buildDependencyGraphP m)) []
          let (ow2, ch2) ← applyParallelization (buildDependencyGraphP m)
            ow1 pz ch1
          return (ow2.jobs.getD [], ch2) :
            Except PyExc (PJobMap × List Change)) = .ok (m', chs) := h
      cases hr : applyRedundantRemovals ⟨some m⟩
          (findRedundantDependencies (buildDependencyGraphP m)) [] with
      | error e =>
          rw [hr] at h1
          have h2 : (Except.error e : Except PyExc (PJobMap × List Change)) =
              .ok (m', chs) := h1
          cases h2
      | ok p1 =>
          obtain ⟨ow1, ch1⟩ := p1
          rw [hr] at h1
          have h2 : (do
              let (ow2, ch2) ← applyParallelization (buildDependencyGraphP m)
                ow1 pz ch1
              return (ow2.jobs.getD [], ch2) :
                Except PyExc (PJobMap × List Change)) = .ok (m', chs) := h1
          cases hpar : applyParallelization (buildDependencyGraphP m)
              ow1 pz ch1 with
          | error e =>
              rw [hpar] at h2
              have h3 : (Except.error e :
                  Except PyExc (PJobMap × List Change)) = .ok (m', chs) := h2
              cases h3
          | ok p2 =>
              obtain ⟨ow2, ch2⟩ := p2
              rw [hpar] at h2
              have h3 : (Except.ok (ow2.jobs.getD [], ch2) :
                  Except PyExc (PJobMap × List Change)) = .ok (m', chs) := h2
              injection h3 with h3p
              injection h3p with hA hB
              obtain ⟨jm1, how1, hshr1, hdisj⟩ :=
                applyRedRem_spec _ m [] ow1 ch1 hr
              subst how1
              obtain ⟨jm2, how2, hshr2⟩ :=
                applyPar_spec pz (buildDependencyGraphP m) jm1 ch1 ow2 ch2 hpar
              subst how2
              -- the final map is jm2
              rw [← hA]
              show findRedundantDependencies (buildDependencyGraphP jm2) = []
              have hshr : JobsShrink m jm2 := hshr1.trans hshr2
              have hnd2 : (jm2.map Prod.fst).Nodup := by
                rw [hshr.1]
                exact hnd
              by_contra hne0
              obtain ⟨entry, hentry⟩ := List.exists_mem_of_ne_nil _ hne0
              obtain ⟨hne2, hshape⟩ := findRedundant_shape _ entry hentry
              obtain ⟨d2, hd2⟩ := List.exists_mem_of_ne_nil _ hne2
              obtain ⟨d1, hd1p, hd2p, hdne, hanc⟩ := hshape d2 hd2
              have he2 : (d2, entry.1) ∈ (buildDependencyGraphP jm2).edges :=
                mem_preds.mp (List.mem_dedup.mp hd2p)
              have he1 : (d1, entry.1) ∈ (buildDependencyGraphP jm2).edges :=
                mem_preds.mp (List.mem_dedup.mp hd1p)
              have h2m := (mem_edges_buildP jm2 hnd2 (d2, entry.1)).mp he2
              have h1m := (mem_edges_buildP jm2 hnd2 (d1, entry.1)).mp he1
              have hd2need : d2 ∈ needNamesAt m entry.1 := hshr.2 _ _ h2m.1
              have hd1need : d1 ∈ needNamesAt m entry.1 := hshr.2 _ _ h1m.1
              have hkey1 : entry.1 ∈ m.map Prod.fst := by
                rw [← hshr.1]
                exact h2m.2.2
              have hged2 : (d2, entry.1) ∈ (buildDependencyGraphP m).edges :=
                (mem_edges_buildP m hnd _).mpr
                  ⟨hd2need, by rw [← hshr.1]; exact h2m.2.1, hkey1⟩
              have hged1 : (d1, entry.1) ∈ (buildDependencyGraphP m).edges :=
                (mem_edges_buildP m hnd _).mpr
                  ⟨hd1need, by rw [← hshr.1]; exact h1m.2.1, hkey1⟩
              have hanc' : d2 ∈ (buildDependencyGraphP m).ancestors d1 := by
                refine ancestors_mono ?_ (edges_subset_of_shrink hnd hshr) hanc
                rw [buildDependencyGraphP_nodes m hnd,
                  buildDependencyGraphP_nodes jm2 hnd2, hshr.1]
              have hjnode : entry.1 ∈ (buildDependencyGraphP m).nodes := by
                rw [buildDependencyGraphP_nodes m hnd]
                exact hkey1
              obtain ⟨reds0, hmem0, hd2r0⟩ :=
                findRedundant_complete (buildDependencyGraphP m) hjnode
                  (List.mem_dedup.mpr (mem_preds.mpr hged1))
                  (List.mem_dedup.mpr (mem_preds.mpr hged2)) hdne hanc'
              have hd2jm1 : d2 ∈ needNamesAt jm1 entry.1 := hshr2.2 _ _ h2m.1
              exact hdisj (entry.1, reds0) hmem0 hkey1 d2 hd2jm1 hd2r0

/-- C7 witness: on scenario C the first optimizer run reduces `c`'s
needs to `[b]`, and the second run's redundant-dependency computation is
empty. -/
theorem redundancy_removal_idempotent_witness :
    findRedundantDependencies (buildDependencyGraphP pmCOpt) = [] :=
  redundancy_removal_idempotent pmC (by decide) pmCOpt
    [⟨"remove_redundant_dependency", "c", ["a"]⟩] (by decide)

/-! ## C10 — atomicity of `optimize_parallelization` -/

theorem githubBody_shape (cm : ContentModel) (c : String) (wd : Workflow)
    (s : String) (ch : List Change)
    (h : optimizeGithubBody cm c wd = .ok (s, ch)) :
    (ch = [] ∧ s = c) ∨ (ch ≠ [] ∧ ∃ w, s = cm.dumpGh w) := by
  rw [optimizeGithubBody] at h
  dsimp only at h
  cases hp : (findParallelizableJobs (wd.jobs.getD [])
      (buildDependencyGraphP (wd.jobs.getD []))).mapError PyExc.nx with
  | error e =>
      rw [hp] at h
      have h2 : (Except.error e : Except PyExc (String × List Change)) =
          .ok (s, ch) := h
      cases h2
  | ok pz =>
      rw [hp] at h
      cases hparse : cm.parseGh c with
      | none =>
          rw [hparse] at h
          have h2 : (Except.error PyExc.parseError :
              Except PyExc (String × List Change)) = .ok (s, ch) := h
          cases h2
      | some w0 =>
          rw [hparse] at h
          have h1 : (do
              let (ow1, ch1) ← applyRedundantRemovals w0
                (findRedundantDependencies
                  (buildDependencyGraphP (wd.jobs.getD []))) []
              let (ow2, ch2) ← applyParallelization
                (buildDependencyGraphP (wd.jobs.getD [])) ow1 pz ch1
              if ch2.isEmpty then pure (c, [])
              else pure (cm.dumpGh ow2, ch2) :
                Except PyExc (String × List Change)) = .ok (s, ch) := h
          cases hr : applyRedundantRemovals w0
              (findRedundantDependencies
                (buildDependencyGraphP (wd.jobs.getD []))) [] with
          | error e =>
              rw [hr] at h1
              have h2 : (Except.error e : Except PyExc (String × List Change)) =
                  .ok (s, ch) := h1
              cases h2
          | ok p1 =>
              obtain ⟨ow1, ch1⟩ := p1
              rw [hr] at h1
              have h1b : (do
                  let (ow2, ch2) ← applyParallelization
                    (buildDependencyGraphP (wd.jobs.getD [])) ow1 pz ch1
                  if ch2.isEmpty then pure (c, [])
                  else pure (cm.dumpGh ow2, ch2) :
                    Except PyExc (String × List Change)) = .ok (s, ch) := h1
              cases hpar : applyParallelization
                  (buildDependencyGraphP (wd.jobs.getD [])) ow1 pz ch1 with
              | error e =>
                  rw [hpar] at h1b
                  have h2 : (Except.error e :
                      Except PyExc (String × List Change)) = .ok (s, ch) := h1b
                  cases h2
              | ok p2 =>
                  obtain ⟨ow2, ch2⟩ := p2
                  rw [hpar] at h1b
                  have h2 : (if ch2.isEmpty then
                      (Except.ok (c, []) : Except PyExc (String × List Change))
                      else .ok (cm.dumpGh ow2, ch2)) = .ok (s, ch) := h1b
                  by_cases hche : ch2.isEmpty
                  · rw [if_pos hche] at h2
                    injection h2 with h3
                    injection h3 with hA hB
                    exact .inl ⟨hB.symm, hA.symm⟩
                  · rw [if_neg hche] at h2
                    injection h2 with h3
                    injection h3 with hA hB
                    refine .inr ⟨?_, ow2, hA.symm⟩
                    rw [← hB]
                    intro hnil
                    rw [hnil] at hche
                    exact hche rfl

theorem gitlabBody_shape (cm : ContentModel) (c : String) (wd : GLData)
    (s : String) (ch : List Change)
    (h : optimizeGitlabBody cm c wd = .ok (s, ch)) :
    (ch = [] ∧ s = c) ∨ (ch ≠ [] ∧ ∃ d, s = cm.dumpGl d) := by
  rw [optimizeGitlabBody] at h
  dsimp only at h
  cases hparse : cm.parseGl c with
  | none =>
      rw [hparse] at h
      have h2 : (Except.error PyExc.parseError :
          Except PyExc (String × List Change)) = .ok (s, ch) := h
      cases h2
  | some w0 =>
      rw [hparse] at h
      have h1 : (if (applyGlRemovals w0
            (findRedundantDependencies
              (buildGitlabDependencyGraph (glJobs wd)))).2.isEmpty then
          (Except.ok (c, []) : Except PyExc (String × List Change))
          else .ok (cm.dumpGl (applyGlRemovals w0
            (findRedundantDependencies
              (buildGitlabDependencyGraph (glJobs wd)))).1,
            (applyGlRemovals w0
              (findRedundantDependencies
                (buildGitlabDependencyGraph (glJobs wd)))).2)) = .ok (s, ch) := h
      rcases hgl : applyGlRemovals w0
          (findRedundantDependencies
            (buildGitlabDependencyGraph (glJobs wd))) with ⟨ow1, ch1⟩
      rw [hgl] at h1
      have h2 : (if ch1.isEmpty then
          (Except.ok (c, []) : Except PyExc (String × List Change))
          else .ok (cm.dumpGl ow1, ch1)) = .ok (s, ch) := h1
      by_cases hche : ch1.isEmpty
      · rw [if_pos hche] at h2
        injection h2 with h3
        injection h3 with hA hB
        exact .inl ⟨hB.symm, hA.symm⟩
      · rw [if_neg hche] at h2
        injection h2 with h3
        injection h3 with hA hB
        refine .inr ⟨?_, ow1, hA.symm⟩
        rw [← hB]
        intro hnil
        rw [hnil] at hche
        exact hche rfl

/-- C10: `optimize_parallelization` is atomic on failure.  An
unsupported platform, or any exception raised while computing or
applying the optimizations (a propagated networkx error, a YAML parse
failure, a missing `jobs` key), yields the caller's content unchanged
with an empty change list; an empty change list always comes with the
unchanged content; and a non-empty change list always comes with a
complete re-serialization of the rewritten workflow, never the original
content with partial edits. -/
theorem optimize_parallelization_atomic (cm : ContentModel) (c : String)
    (wd : WData) (p : String) :
    ((p ≠ "github_actions" ∧ p ≠ "gitlab_ci") →
      optimizeParallelization cm c wd p = (c, [])) ∧
    (∀ e, p = "github_actions" →
      optimizeGithubBody cm c wd.asGithub = .error e →
      optimizeParallelization cm c wd p = (c, [])) ∧
    (∀ e, p = "gitlab_ci" →
      optimizeGitlabBody cm c wd.asGitlab = .error e →
      optimizeParallelization cm c wd p = (c, [])) ∧
    ((optimizeParallelization cm c wd p).2 = [] →
      (optimizeParallelization cm c wd p).1 = c) ∧
    ((optimizeParallelization cm c wd p).2 ≠ [] →
      (∃ w, (optimizeParallelization cm c wd p).1 = cm.dumpGh w) ∨
      (∃ d, (optimizeParallelization cm c wd p).1 = cm.dumpGl d)) := by
  by_cases hgh : p = "github_actions"
  · have hres : optimizeParallelization cm c wd p =
        optimizeGithubActions cm c wd.asGithub := by
      rw [optimizeParallelization, hgh]
      rfl
    refine ⟨?_, ?_, ?_, ?_, ?_⟩
    · rintro ⟨h1, _⟩
      exact absurd hgh h1
    · intro e _ herr
      rw [hres, optimizeGithubActions, herr]
    · intro e hp' _
      exact absurd (hgh.symm.trans hp') (by decide)
    · intro hch
      rw [hres] at hch ⊢
      rw [optimizeGithubActions] at hch ⊢
      cases hb : optimizeGithubBody cm c wd.asGithub with
      | error e => rfl
      | ok r =>
          rw [hb] at hch
          rcases githubBody_shape cm c wd.asGithub r.1 r.2 (by rw [hb]) with
            ⟨_, h2⟩ | ⟨h1, _⟩
          · exact h2
          · exact absurd hch h1
    · intro hch
      rw [hres] at hch ⊢
      rw [optimizeGithubActions] at hch ⊢
      cases hb : optimizeGithubBody cm c wd.asGithub with
      | error e =>
          rw [hb] at hch
          exact absurd rfl hch
      | ok r =>
          rw [hb] at hch
          rcases githubBody_shape cm c wd.asGithub r.1 r.2 (by rw [hb]) with
            ⟨h1, _⟩ | ⟨_, w, h2⟩
          · exact absurd h1 hch
          · exact .inl ⟨w, h2⟩
  · by_cases hgl : p = "gitlab_ci"
    · have hres : optimizeParallelization cm c wd p =
          optimizeGitlabCI cm c wd.asGitlab := by
        rw [optimizeParallelization, hgl]
        rfl
      refine ⟨?_, ?_, ?_, ?_, ?_⟩
      · rintro ⟨_, h2⟩
        exact absurd hgl h2
      · intro e hp' _
        exact absurd hp' hgh
      · intro e _ herr
        rw [hres, optimizeGitlabCI, herr]
      · intro hch
        rw [hres] at hch ⊢
        rw [optimizeGitlabCI] at hch ⊢
        cases hb : optimizeGitlabBody cm c wd.asGitlab with
        | error e => rfl
        | ok r =>
            rw [hb] at hch
            rcases gitlabBody_shape cm c wd.asGitlab r.1 r.2 (by rw [hb]) with
              ⟨_, h2⟩ | ⟨h1, _⟩
            · exact h2
            · exact absurd hch h1
      · intro hch
        rw [hres] at hch ⊢
        rw [optimizeGitlabCI] at hch ⊢
        cases hb : optimizeGitlabBody cm c wd.asGitlab with
        | error e =>
            rw [hb] at hch
            exact absurd rfl hch
        | ok r =>
            rw [hb] at hch
            rcases gitlabBody_shape cm c wd.asGitlab r.1 r.2 (by rw [hb]) with
              ⟨h1, _⟩ | ⟨_, d, h2⟩
            · exact absurd h1 hch
            · exact .inr ⟨d, h2⟩
    · have hres : optimizeParallelization cm c wd p = (c, []) := by
        rw [optimizeParallelization]
        have hb1 : (p == "github_actions") = false := by simpa using hgh
        have hb2 : (p == "gitlab_ci") = false := by simpa using hgl
        rw [hb1]
        simp only [Bool.false_eq_true, if_false]
        rw [hb2]
        simp only [Bool.false_eq_true, if_false]
      refine ⟨fun _ => hres, ?_, ?_, ?_, ?_⟩
      · intro e hp' _
        exact absurd hp' hgh
      · intro e hp' _
        exact absurd hp' hgl
      · intro _
        rw [hres]
      · intro hch
        rw [hres] at hch
        exact absurd rfl hch

/-- C10 witness: an unsupported platform returns the content unchanged
with no changes. -/
theorem optimize_parallelization_atomic_witness :
    optimizeParallelization cmTriv "jobs: {}" (.gh {}) "circleci" =
      ("jobs: {}", []) :=
  (optimize_parallelization_atomic cmTriv "jobs: {}" (.gh {}) "circleci").1
    (by decide)

end CICD
